import Mathlib

/-!
# Struct equality lowering (`cmd/compile/internal/compare`)

A shallow embedding of `compare.go`: the field-run merger `Memrun`, the
panic analysis `EqCanPanic`, the comparison builders and the synthesizer
`Struct`, followed by the properties proved about them.  The namespaces
`Rand` and `Fipstls` hold the embedding of `batched` (`crypto/rand`) and of
the FIPS switch of TLS (`crypto/internal/boring/fipstls`).

Conventions of the embedding.

* Offsets, widths and alignments are the `int64` values computed by the
  layout pass; they are carried as `Int`.  The only place where the source
  leaves the range of ordinary arithmetic is the shift
  `1 << TrailingZeros64(uint64(off))`, which is modelled with explicit
  conversions to `uint64` and back to `int64`.
* An index-out-of-range panic is the value `none`.
* What the source reads from other packages (the target's minimum access
  alignment, the equality algorithm chosen for a type) is a field of `Env`.
-/

namespace Compare

/-! ## Types (`cmd/compile/internal/types`) -/

/-- Kinds of types, as in `types.Kind`. -/
inductive Kind where
  | TINT8 | TUINT8 | TINT16 | TUINT16 | TINT32 | TUINT32 | TINT64 | TUINT64
  | TINT | TUINT | TUINTPTR
  | TCOMPLEX64 | TCOMPLEX128 | TFLOAT32 | TFLOAT64
  | TBOOL | TPTR | TFUNC | TSLICE | TARRAY | TSTRUCT | TCHAN | TMAP
  | TINTER | TSTRING | TUNSAFEPTR
  deriving DecidableEq, Repr

/-- Kinds whose component types the comparison code never inspects. -/
inductive Leaf where
  | TINT8 | TUINT8 | TINT16 | TUINT16 | TINT32 | TUINT32 | TINT64 | TUINT64
  | TINT | TUINT | TUINTPTR
  | TCOMPLEX64 | TCOMPLEX128 | TFLOAT32 | TFLOAT64
  | TBOOL | TPTR | TFUNC | TSLICE | TCHAN | TMAP
  | TSTRING | TUNSAFEPTR
  deriving DecidableEq, Repr

/-- The kind of a leaf type. -/
def Leaf.toKind : Leaf → Kind
  | .TINT8 => .TINT8 | .TUINT8 => .TUINT8 | .TINT16 => .TINT16 | .TUINT16 => .TUINT16
  | .TINT32 => .TINT32 | .TUINT32 => .TUINT32 | .TINT64 => .TINT64 | .TUINT64 => .TUINT64
  | .TINT => .TINT | .TUINT => .TUINT | .TUINTPTR => .TUINTPTR
  | .TCOMPLEX64 => .TCOMPLEX64 | .TCOMPLEX128 => .TCOMPLEX128
  | .TFLOAT32 => .TFLOAT32 | .TFLOAT64 => .TFLOAT64
  | .TBOOL => .TBOOL | .TPTR => .TPTR | .TFUNC => .TFUNC | .TSLICE => .TSLICE
  | .TCHAN => .TCHAN | .TMAP => .TMAP | .TSTRING => .TSTRING | .TUNSAFEPTR => .TUNSAFEPTR

/-- A symbol: the name of a field. -/
structure Sym where
  Name : String
  deriving DecidableEq, Repr

/-- The blank identifier test, `Sym.IsBlank`. -/
def Sym.IsBlank (s : Sym) : Bool := s.Name == "_"

mutual
/-- A type with its computed layout (`width`, `align`), as `types.Type`. -/
inductive GoType where
  | leaf (kind : Leaf) (width align : Int)
  | inter (methods : List String) (width align : Int)
  | array (elem : GoType) (bound : Int) (width align : Int)
  | struct (fields : List Field) (width align : Int)
/-- A struct field with its byte offset, as `types.Field`. -/
inductive Field where
  | mk (sym : Sym) (typ : GoType) (offset : Int)
end

/-- The name of a field. -/
def Field.Sym : Field → Sym
  | .mk s _ _ => s

/-- The type of a field (`Field.Type` in the source). -/
def Field.Typ : Field → GoType
  | .mk _ t _ => t

/-- The byte offset of a field within its struct. -/
def Field.Offset : Field → Int
  | .mk _ _ o => o

/-- The kind of a type, `Type.Kind`. -/
def GoType.Kind : GoType → Kind
  | .leaf k _ _ => k.toKind
  | .inter _ _ _ => .TINTER
  | .array _ _ _ _ => .TARRAY
  | .struct _ _ _ => .TSTRUCT

/-- The size in bytes of a value of the type (the field `width`). -/
def GoType.width : GoType → Int
  | .leaf _ w _ => w
  | .inter _ w _ => w
  | .array _ _ w _ => w
  | .struct _ w _ => w

/-- The alignment of the type, `Type.Alignment`. -/
def GoType.Alignment : GoType → Int
  | .leaf _ _ a => a
  | .inter _ _ a => a
  | .array _ _ _ a => a
  | .struct _ _ a => a

/-- The fields of a struct type, `Type.FieldSlice`; no fields for another type. -/
def GoType.FieldSlice : GoType → List Field
  | .struct fs _ _ => fs
  | _ => []

/-- The number of fields, `Type.NumFields`. -/
def GoType.NumFields (t : GoType) : Nat := t.FieldSlice.length

/-- The i-th field, `Type.Field`; `none` stands for the index-out-of-range panic. -/
def GoType.Field (t : GoType) (i : Nat) : Option Field := t.FieldSlice[i]?

/-- Whether the type is a string type, `Type.IsString`. -/
def GoType.IsString (t : GoType) : Bool := t.Kind == .TSTRING

/-- Whether the type is an interface type, `Type.IsInterface`. -/
def GoType.IsInterface (t : GoType) : Bool := t.Kind == .TINTER

/-- Whether the type is an interface without methods, `Type.IsEmptyInterface`. -/
def GoType.IsEmptyInterface : GoType → Bool
  | .inter ms _ _ => ms.isEmpty
  | _ => false

/-- The element type of an array type, `Type.Elem`; `none` for a type that is
not an array. -/
def GoType.Elem : GoType → Option GoType
  | .array elem _ _ _ => some elem
  | _ => none

/-- Modelled from the spec: `Field.End` of package `types` is not among the
sources; the data model gives the end offset of a field as offset plus size. -/
def Field.End (f : Field) : Int := f.Offset + f.Typ.width

/-- Modelled from the spec: `types.IsPaddedField` is not among the sources;
a field is followed by padding exactly when its end offset differs from the
offset of the next field, or from the size of the struct for the last field. -/
def IsPaddedField (t : GoType) (i : Nat) : Option Bool := do
  let f ← t.Field i
  if i + 1 < t.NumFields then
    let g ← t.Field (i + 1)
    pure (f.End != g.Offset)
  else
    pure (f.End != t.width)

/-- Equality algorithms, `types.AlgKind`. -/
inductive AlgKind where
  | ANOEQ | AMEM | ASTRING | AINTER | ANILINTER | AFLOAT32 | AFLOAT64
  | ACPLX64 | ACPLX128 | ASPECIAL
  deriving DecidableEq, Repr

/-! ## Expression nodes (`cmd/compile/internal/ir`) -/

/-- The node operations that `compare.go` tests or builds, as in `ir.Op`. -/
inductive Op where
  | ONAME | OLITERAL | OXDOT | OADDR | OCONV
  | OEQ | ONE | ONOT | OLEN | OSPTR | OITAB | OIDATA
  | OCALL | OCALLFUNC
  deriving DecidableEq, Repr

/-- Expression nodes, as far as `compare.go` builds them: names (the operand
handles and the runtime routines), integer literals, field selectors,
address-of, the unary and binary expressions, conversions and calls.  The
types that the typechecker attaches to nodes are not part of the syntax. -/
inductive Node where
  | Name (name : String)
  | BasicLit (val : Int)
  | SelectorExpr (op : Op) (x : Node) (sel : Sym)
  | AddrExpr (op : Op) (x : Node)
  | ConvExpr (op : Op) (x : Node) (typ : Kind)
  | UnaryExpr (op : Op) (x : Node)
  | BinaryExpr (op : Op) (x y : Node)
  | CallExpr (op : Op) (fn : Node) (args : List Node)

/-- The operation of a node, `Node.Op`. -/
def Node.Op : Node → Compare.Op
  | .Name _ => .ONAME
  | .BasicLit _ => .OLITERAL
  | .SelectorExpr op _ _ => op
  | .AddrExpr op _ => op
  | .ConvExpr op _ _ => op
  | .UnaryExpr op _ => op
  | .BinaryExpr op _ _ => op
  | .CallExpr op _ _ => op

/-- The method `SetOp` on the nodes whose operation `compare.go` changes. -/
def Node.SetOp : Node → Compare.Op → Node
  | .BinaryExpr _ x y, op => .BinaryExpr op x y
  | .UnaryExpr _ x, op => .UnaryExpr op x
  | n, _ => n

/-- What `compare.go` reads from the rest of the compiler: the minimum access
alignment of the target (`base.Ctxt.Arch.Alignment`), the equality algorithm
the type system selected for a type (the first result of `types.AlgType`),
the static type of an expression (`Node.Type`) and the identity of types
(`types.Identical`). -/
structure Env where
  ArchAlignment : Int
  AlgType : GoType → AlgKind
  TypeOf : Node → GoType
  Identical : GoType → GoType → Bool

/-- Whether values of the type can be compared as regular memory. -/
def IsRegularMemory (env : Env) (t : GoType) : Bool :=
  env.AlgType t == .AMEM

mutual
/-- Whether == on the type could panic (it has an interface somewhere). -/
def EqCanPanic : GoType → Bool
  | .leaf _ _ _ => false
  | .inter _ _ _ => true
  | .array elem _ _ _ => EqCanPanic elem
  | .struct fields _ _ => EqCanPanicFields fields
/-- The loop of `EqCanPanic` over the fields of a struct. -/
def EqCanPanicFields : List Field → Bool
  | [] => false
  | .mk sym ty _ :: rest =>
    if !sym.IsBlank && EqCanPanic ty then true else EqCanPanicFields rest
end

/-! ## The field-run merger -/

/-- The conversion `uint64(x)` of an integer. -/
def toUint64 (x : Int) : Nat := (x % 2 ^ 64).toNat

/-- The conversion to `int64` of an integer: the value modulo 2^64 in the
signed range. -/
def toInt64 (x : Int) : Int := (x + 2 ^ 63) % 2 ^ 64 - 2 ^ 63

/-- The count of trailing zero bits among the lowest `n` bits of a nonzero `x`. -/
def trailingZerosAux : Nat → Nat → Nat
  | 0, _ => 0
  | n + 1, x => if x % 2 = 1 then 0 else trailingZerosAux n (x / 2) + 1

/-- Modelled from the spec: `bits.TrailingZeros64` of package `math/bits` is
not among the sources; it is the number of trailing zero bits of a 64-bit
word (so that 2 to that number is the largest power of two dividing the
word), and 64 for the word 0. -/
def TrailingZeros64 (x : Nat) : Nat :=
  if x % 2 ^ 64 = 0 then 64 else trailingZerosAux 64 (x % 2 ^ 64)

/-- The alignment that `Memrun` allows a run starting at offset `off` in a
struct of alignment `align` (lines 41 to 46 of the source): `align`, unless
the offset is less aligned, and then `1 << TrailingZeros64(uint64(off))`. -/
def memrunAlign (align off : Int) : Int :=
  if Int.land off (align - 1) != 0 then
    toInt64 (2 ^ TrailingZeros64 (toUint64 off))
  else
    align

/-- The loop of `Memrun`: one iteration per unit of fuel, entered with the
value `next` has before `next++`; the result is the value of `next` at the
`break`.  No fuel left is `none`, as is an index out of range. -/
def memrunLoop (env : Env) (t : GoType) (start : Nat) : Nat → Nat → Option Nat
  | 0, _ => none
  | fuel + 1, next0 =>
    let next := next0 + 1
    if next = t.NumFields then some next
    else
      -- Stop run after a padded field.
      match IsPaddedField t (next - 1) with
      | none => none
      | some true => some next
      | some false =>
        -- Also, stop before a blank or non-memory field.
        match t.Field next with
        | none => none
        | some f =>
          if f.Sym.IsBlank || !IsRegularMemory env f.Typ then some next
          else if env.ArchAlignment > 1 then
            match t.Field start with
            | none => none
            | some fs =>
              let align := memrunAlign t.Alignment fs.Offset
              let size := f.End - fs.Offset
              if size > align then some next
              else memrunLoop env t start fuel next
          else memrunLoop env t start fuel next

/-- The run of memory-comparable fields of the struct `t` that starts at
field `start`: the size in bytes of the memory of the run and the index just
after it.  The loop runs at most once per field. -/
def Memrun (env : Env) (t : GoType) (start : Nat) : Option (Int × Nat) :=
  match memrunLoop env t start (t.NumFields + 1) start with
  | none => none
  | some next =>
    match t.Field (next - 1), t.Field start with
    | some l, some fs => some (l.End - fs.Offset, next)
    | _, _ => none

/-! ## The comparison builders -/

/-- The runtime routine of the given name, `typecheck.LookupRuntime`; the
instantiation of its argument types by `typecheck.SubstArgTypes` is not
represented. -/
def LookupRuntime (name : String) : Node := .Name name

/-- The call built and typechecked by `typecheck.Call`: a call of a function,
so of operation `OCALLFUNC`. -/
def typecheckCall (fn : Node) (args : List Node) : Node := .CallExpr .OCALLFUNC fn args

/-- The conversion built by `typecheck.Conv`, kept as an explicit node. -/
def typecheckConv (n : Node) (typ : Kind) : Node := .ConvExpr .OCONV n typ

/-- The nodes `len(s) == len(t)` and `memequal(s.ptr, t.ptr, len(s))` of a
string comparison. -/
def EqString (s t : Node) : Node × Node :=
  let s := typecheckConv s .TSTRING
  let t := typecheckConv t .TSTRING
  let sptr := Node.UnaryExpr .OSPTR s
  let tptr := Node.UnaryExpr .OSPTR t
  let slen := typecheckConv (.UnaryExpr .OLEN s) .TUINTPTR
  let tlen := typecheckConv (.UnaryExpr .OLEN t) .TUINTPTR
  let fn := LookupRuntime "memequal"
  let call := typecheckCall fn [sptr, tptr, slen]
  let cmp := Node.BinaryExpr .OEQ slen tlen
  (cmp, call)

/-- The nodes `s.tab == t.tab` and `ifaceeq(s.tab, s.data, t.data)` (or
`efaceeq`) of an interface comparison; an error is the fatal failure of the
compiler when the two operand types differ. -/
def EqInterface (env : Env) (s t : Node) : Except String (Node × Node) :=
  if !env.Identical (env.TypeOf s) (env.TypeOf t) then
    .error "EqInterface"
  else
    let fn :=
      if (env.TypeOf s).IsEmptyInterface then LookupRuntime "efaceeq"
      else LookupRuntime "ifaceeq"
    let stab := Node.UnaryExpr .OITAB s
    let ttab := Node.UnaryExpr .OITAB t
    let sdata := Node.UnaryExpr .OIDATA s
    let tdata := Node.UnaryExpr .OIDATA t
    let call := typecheckCall fn [stab, sdata, tdata]
    let cmp := Node.BinaryExpr .OEQ stab ttab
    .ok (cmp, call)

/-- The node `p.field == q.field` (or `!=`, by `op`). -/
def eqfield (p q : Node) (op : Op) (field : Sym) : Node :=
  let nx := Node.SelectorExpr .OXDOT p field
  let ny := Node.SelectorExpr .OXDOT q field
  .BinaryExpr op nx ny

/-- The runtime routine that compares `size` bytes, and whether it takes the
size as an argument. -/
def eqmemfunc (size : Int) : Node × Bool :=
  if size = 1 ∨ size = 2 ∨ size = 4 ∨ size = 8 ∨ size = 16 then
    (LookupRuntime ("memequal" ++ toString (size.toNat * 8)), false)
  else
    (LookupRuntime "memequal", true)

/-- The node `memequal(&p.field, &q.field, size)`. -/
def eqmem (p q : Node) (field : Sym) (size : Int) : Node :=
  let nx := Node.AddrExpr .OADDR (.SelectorExpr .OXDOT p field)
  let ny := Node.AddrExpr .OADDR (.SelectorExpr .OXDOT q field)
  let (fn, needsize) := eqmemfunc size
  let args := [nx, ny]
  let args := if needsize then args ++ [Node.BasicLit size] else args
  .CallExpr .OCALL fn args

/-! ## The synthesizer -/

/-- The closure `and` of `Struct`: append a condition to the last group.
`Struct` never has an empty list of groups. -/
def andCond : List (List Node) → Node → List (List Node)
  | [], n => [[n]]
  | [c], n => [c ++ [n]]
  | c :: cs, n => c :: andCond cs n

/-- The slice `fields[i:next]`. -/
def sliceFields (fields : List Field) (i next : Nat) : List Field :=
  (fields.take next).drop i

/-- The conditions that `Struct` adds for a non-memory field (lines 107 to
119): the length check and the bytes check of a string, the latter negated
when `op` is not `OEQ`; a plain comparison for any other type. -/
def nonMemConds (op : Op) (np nq : Node) (f : Field) : List Node :=
  let p := Node.SelectorExpr .OXDOT np f.Sym
  let q := Node.SelectorExpr .OXDOT nq f.Sym
  if f.Typ.IsString then
    let (eqlen, eqmem) := EqString p q
    let callmem := if op ≠ .OEQ then Node.UnaryExpr .ONOT eqmem else eqmem
    let eqlen := if op ≠ .OEQ then eqlen.SetOp op else eqlen
    [eqlen, callmem]
  else
    [.BinaryExpr op p q]

/-- The conditions that `Struct` adds for the run of memory fields found at
field `f` (lines 133 to 145): a plain comparison per field for a run of at
most two fields, one `memequal` call, negated when `op` is not `OEQ`,
for a longer run. -/
def memConds (op : Op) (np nq : Node) (f : Field) (s : List Field) (size : Int) :
    List Node :=
  if s.length ≤ 2 then
    s.map (fun f => eqfield np nq op f.Sym)
  else
    let cc := eqmem np nq f.Sym size
    let cc := if op ≠ .OEQ then Node.UnaryExpr .ONOT cc else cc
    [cc]

/-- One iteration of the loop of `Struct` at field index `i` with the groups
`conds`: the next index and the groups after it. -/
def structStep (env : Env) (t : GoType) (op : Op) (np nq : Node)
    (i : Nat) (conds : List (List Node)) : Option (Nat × List (List Node)) :=
  match t.FieldSlice[i]? with
  | none => none
  | some f =>
    -- Skip blank-named fields.
    if f.Sym.IsBlank then some (i + 1, conds)
    -- Compare non-memory fields with field equality.
    else if !IsRegularMemory env f.Typ then
      let conds := if EqCanPanic f.Typ then conds ++ [[]] else conds
      let conds := (nonMemConds op np nq f).foldl andCond conds
      let conds := if EqCanPanic f.Typ then conds ++ [[]] else conds
      some (i + 1, conds)
    else
      -- Find maximal length run of memory-only fields.
      match Memrun env t i with
      | none => none
      | some (size, next) =>
        let s := sliceFields t.FieldSlice i next
        some (next, (memConds op np nq f s size).foldl andCond conds)

/-- The loop of `Struct`, one iteration per unit of fuel, from field index
`i` and the groups `conds`; the result is the groups at the end of the walk. -/
def structLoop (env : Env) (t : GoType) (op : Op) (np nq : Node) :
    Nat → Nat → List (List Node) → Option (List (List Node))
  | 0, i, conds => if i < t.FieldSlice.length then none else some conds
  | fuel + 1, i, conds =>
    if i < t.FieldSlice.length then
      match structStep env t op np nq i conds with
      | none => none
      | some (i', conds') => structLoop env t op np nq fuel i' conds'
    else some conds

/-- The first `n` iterations of the loop of `Struct` from field index `i` and
the groups `conds`: the index and the groups the walk has then. -/
def structIter (env : Env) (t : GoType) (op : Op) (np nq : Node) :
    Nat → Nat → List (List Node) → Option (Nat × List (List Node))
  | 0, i, conds => some (i, conds)
  | n + 1, i, conds =>
    if i < t.FieldSlice.length then
      match structStep env t op np nq i conds with
      | none => none
      | some (i', conds') => structIter env t op np nq n i' conds'
    else none

/-- Whether a condition is a runtime call, the closure `isCall` of `Struct`. -/
def isCall (n : Node) : Bool := n.Op == .OCALL || n.Op == .OCALLFUNC

/-- The order by which `Struct` sorts a group: a condition that is not a call
is before one that is. -/
def callLess (a b : Node) : Bool := !isCall a && isCall b

/-- Insertion of `a` in front of a sorted list, after the elements of the
list that are less than it. -/
def insertStable {α : Type} (less : α → α → Bool) (a : α) : List α → List α
  | [] => [a]
  | b :: l => if less b a then b :: insertStable less a l else a :: b :: l

/-- Modelled from the spec: `sort.SliceStable` of package `sort` is not among
the sources; it is a stable sort, one that keeps the relative order of the
elements that the order does not separate, here by insertion. -/
def SliceStable {α : Type} (less : α → α → Bool) : List α → List α
  | [] => []
  | a :: l => insertStable less a (SliceStable less l)

/-- The last pass of `Struct` (lines 151 to 160): each group sorted to put
the runtime calls last, and the groups appended in order. -/
def flatConds (conds : List (List Node)) : List Node :=
  (conds.map (SliceStable callLess)).flatten

/-- The conditions that compare two structs `np` and `nq` of type `t` with
the operation `op`.  The walk has at most one iteration per field. -/
def Struct (env : Env) (t : GoType) (op : Op) (np nq : Node) : Option (List Node) :=
  match structLoop env t op np nq t.FieldSlice.length 0 [[]] with
  | none => none
  | some conds => some (flatConds conds)

/-! ## Notions used to state the properties -/

/-- The field at index `j` prolongs the run from `start`: the field before it
is not followed by padding, it is neither blank nor a non-memory field, and
where the target has a minimum alignment above 1 the span from the offset of
field `start` to its end is within the alignment that `Memrun` allows. -/
def RunExtends (env : Env) (t : GoType) (start j : Nat) : Prop :=
  IsPaddedField t (j - 1) = some false ∧
  ∃ f fs, t.Field j = some f ∧ t.Field start = some fs ∧
    f.Sym.IsBlank = false ∧ IsRegularMemory env f.Typ = true ∧
    (1 < env.ArchAlignment → f.End - fs.Offset ≤ memrunAlign t.Alignment fs.Offset)

/-- A stop condition of `Memrun` holds at index `next` for the run from
`start`: field `next - 1` is followed by padding, or field `next` is blank or
not memory-comparable, or the target has a minimum alignment above 1 and the
span from the offset of field `start` to the end of field `next` exceeds the
alignment that `Memrun` allows. -/
def RunStops (env : Env) (t : GoType) (start next : Nat) : Prop :=
  IsPaddedField t (next - 1) = some true ∨
  (∃ f, t.Field next = some f ∧ (f.Sym.IsBlank = true ∨ IsRegularMemory env f.Typ = false)) ∨
  (1 < env.ArchAlignment ∧ ∃ f fs, t.Field next = some f ∧ t.Field start = some fs ∧
    memrunAlign t.Alignment fs.Offset < f.End - fs.Offset)

/-- The groups `d` of a walk started from one empty group, moved behind the
groups `pre` and the open group `g`. -/
def graft (pre : List (List Node)) (g : List Node) : List (List Node) → List (List Node)
  | [] => pre ++ [g]
  | d0 :: ds => pre ++ (g ++ d0) :: ds

/-! ## Types and targets of the examples -/

/-- The type `int64`. -/
def int64T : GoType := .leaf .TINT64 8 8

/-- The type `int32`. -/
def int32T : GoType := .leaf .TINT32 4 4

/-- The type `uint16`. -/
def uint16T : GoType := .leaf .TUINT16 2 2

/-- The type `uint8`. -/
def uint8T : GoType := .leaf .TUINT8 1 1

/-- The type `string` on a 64-bit target. -/
def stringT : GoType := .leaf .TSTRING 16 8

/-- The type `any`, the empty interface, on a 64-bit target. -/
def anyT : GoType := .inter [] 16 8

/-- The type `[2]int64`. -/
def arrayT : GoType := .array int64T 2 16 8

/-- The equality algorithm of the types of the examples: memory for the
integer types and for arrays of them, the string and interface algorithms
for strings and interfaces, and a special algorithm for the rest. -/
def exampleAlg : GoType → AlgKind
  | .leaf k _ _ =>
    match k with
    | .TINT8 | .TUINT8 | .TINT16 | .TUINT16 | .TINT32 | .TUINT32 | .TINT64 | .TUINT64
    | .TINT | .TUINT | .TUINTPTR | .TBOOL | .TPTR | .TCHAN | .TUNSAFEPTR => .AMEM
    | .TSTRING => .ASTRING
    | .TFLOAT32 => .AFLOAT32
    | .TFLOAT64 => .AFLOAT64
    | .TCOMPLEX64 => .ACPLX64
    | .TCOMPLEX128 => .ACPLX128
    | .TFUNC | .TSLICE | .TMAP => .ANOEQ
  | .inter ms _ _ => if ms.isEmpty then .ANILINTER else .AINTER
  | .array elem _ _ _ => if exampleAlg elem = .AMEM then .AMEM else .ASPECIAL
  | .struct _ _ _ => .ASPECIAL

/-- A target for the examples, of the given minimum access alignment, on
which every operand is of type `any`. -/
def exampleEnv (alignment : Int) : Env :=
  ⟨alignment, exampleAlg, fun _ => anyT, fun a b => a.Kind == b.Kind⟩

/-- The struct `{s string; x int64}`. -/
def stringFirstT : GoType :=
  .struct [.mk ⟨"s"⟩ stringT 0, .mk ⟨"x"⟩ int64T 16] 24 8

/-- The struct `{x [2]int64}`. -/
def oneArrayT : GoType :=
  .struct [.mk ⟨"x"⟩ arrayT 0] 16 8

/-- The struct `{a uint8; b uint8; c uint16; d int32}`. -/
def smallFieldsT : GoType :=
  .struct [.mk ⟨"a"⟩ uint8T 0, .mk ⟨"b"⟩ uint8T 1, .mk ⟨"c"⟩ uint16T 2,
    .mk ⟨"d"⟩ int32T 4] 8 4

/-- The struct `{A int64; B any; C int64}`. -/
def guardedT : GoType :=
  .struct [.mk ⟨"A"⟩ int64T 0, .mk ⟨"B"⟩ anyT 8, .mk ⟨"C"⟩ int64T 24] 32 8

/-- The struct `{I any}`. -/
def anyOnlyT : GoType :=
  .struct [.mk ⟨"I"⟩ anyT 0] 16 8

/-- The struct `{S string; X int32}`. -/
def stringIntT : GoType :=
  .struct [.mk ⟨"S"⟩ stringT 0, .mk ⟨"X"⟩ int32T 16] 24 8

/-- The left operand of the examples. -/
def lhs : Node := .Name "p"

/-- The right operand of the examples. -/
def rhs : Node := .Name "q"

/-- The struct `{X int64; Y int64; S string; I any; Z int32}`. -/
def fiveFieldsT : GoType :=
  .struct [.mk ⟨"X"⟩ int64T 0, .mk ⟨"Y"⟩ int64T 8, .mk ⟨"S"⟩ stringT 16,
    .mk ⟨"I"⟩ anyT 32, .mk ⟨"Z"⟩ int32T 48] 56 8

/-- The struct `{_ int64; _ any}`. -/
def allBlankT : GoType :=
  .struct [.mk ⟨"_"⟩ int64T 0, .mk ⟨"_"⟩ anyT 8] 24 8

/-! ## Notions used to state the properties of the walk -/

/-- The ranges of field indices that the iterations of the loop of `Struct`
compare, in the order of the walk: an iteration at a blank field compares
nothing, an iteration at another field `i` that goes to the index `i'`
compares the fields from `i` up to `i'` (the field `i` alone for a
non-memory field, the run of `Memrun` for a memory field). -/
def structCover (env : Env) (t : GoType) (op : Op) (np nq : Node) :
    Nat → Nat → List (List Node) → Option (List (Nat × Nat))
  | 0, i, _ => if i < t.FieldSlice.length then none else some []
  | fuel + 1, i, conds =>
    if i < t.FieldSlice.length then
      match structStep env t op np nq i conds, t.FieldSlice[i]? with
      | some (i', conds'), some f =>
        match structCover env t op np nq fuel i' conds' with
        | none => none
        | some rest => if f.Sym.IsBlank then some rest else some ((i, i') :: rest)
      | _, _ => none
    else some []

/-- The conditions that the loop of `Struct` adds for a range of fields
that `structCover` lists: those of the non-memory field `r.1`, or those of
the run of memory fields that `Memrun` finds at `r.1`, which ends at `r.2`. -/
def rangeConds (env : Env) (t : GoType) (op : Op) (np nq : Node) (r : Nat × Nat) :
    List Node :=
  match t.FieldSlice[r.1]? with
  | none => []
  | some f =>
    if IsRegularMemory env f.Typ then
      match Memrun env t r.1 with
      | none => []
      | some (size, _) => memConds op np nq f (sliceFields t.FieldSlice r.1 r.2) size
    else nonMemConds op np nq f

/-- The negation of a condition of the equal mode: `!=` for a comparison
`==`, and the negation of a call. -/
def negateCond : Node → Node
  | .BinaryExpr .OEQ x y => .BinaryExpr .ONE x y
  | n => .UnaryExpr .ONOT n

end Compare

/-! # Batched reads (`crypto/rand`, `rand_js.go`) -/

namespace Rand

/-- One call of the function given to `batched`: the offset in the buffer
and the bytes of the subslice it received, the bytes of the subslice when it
returned, and the error it returned. -/
structure Call (ε : Type) where
  off : Nat
  arg : List UInt8
  res : List UInt8
  err : Option ε

/-- What a call of the function that `batched` returns leaves: the state of
`f`, the bytes of the buffer, the calls of `f` in order, and the error
returned (`none` for `nil`). -/
structure Result (σ ε : Type) where
  state : σ
  out : List UInt8
  calls : List (Call ε)
  err : Option ε

/-- The loop of the function that `batched` returns, one iteration per unit
of fuel, on the slice `out` that starts at offset `off` of the buffer.  The
function `f` takes its state and the bytes of a subslice, and gives its new
state, the bytes it leaves in the subslice and its error.  No fuel left is
`none`, as is the panic of `out[:read]` for a negative `read`. -/
def batchedLoop {σ ε : Type} (f : σ → List UInt8 → σ × List UInt8 × Option ε)
    (readMax : Int) : Nat → σ → Nat → List UInt8 → Option (Result σ ε)
  | 0, _, _, _ => none
  | fuel + 1, s, off, out =>
    if out.length > 0 then
      let read : Int := out.length
      let read := if read > readMax then readMax else read
      if read < 0 then none
      else
        let chunk := out.take read.toNat
        match f s chunk with
        | (s', res, some e) =>
          some ⟨s', res ++ out.drop read.toNat, [⟨off, chunk, res, some e⟩], some e⟩
        | (s', res, none) =>
          match batchedLoop f readMax fuel s' (off + read.toNat) (out.drop read.toNat) with
          | none => none
          | some r => some ⟨r.state, res ++ r.out, ⟨off, chunk, res, none⟩ :: r.calls, r.err⟩
    else some ⟨s, out, [], none⟩

/-- The function that `batched(f, readMax)` returns, applied to the slice
`out` with `f` in the state `s`.  With a positive `readMax` the loop has at
most one iteration per byte. -/
def batched {σ ε : Type} (f : σ → List UInt8 → σ × List UInt8 × Option ε)
    (readMax : Int) (s : σ) (out : List UInt8) : Option (Result σ ε) :=
  batchedLoop f readMax (out.length + 1) s 0 out

/-- The state of `f` before its call of index `k`, in a run on the slice
`out` from the state `s` with subslices of `m` bytes in which the calls
before it returned: the state that the call of index `k - 1`, on the bytes
of `out` from the offset `(k - 1) * m`, left. -/
def stateBefore {σ ε : Type} (f : σ → List UInt8 → σ × List UInt8 × Option ε)
    (m : Nat) (s : σ) (out : List UInt8) : Nat → σ
  | 0 => s
  | k + 1 => (f (stateBefore f m s out k) ((out.drop (k * m)).take m)).1

/-- A function for the examples: it fills its subslice with the byte 7 and
returns no error. -/
def fillSeven (s : Unit) (b : List UInt8) : Unit × List UInt8 × Option String :=
  (s, b.map (fun _ => 7), none)

/-- A function for the examples: it counts its calls and returns an error on
the second one, leaving the subslice as it is. -/
def failSecond (s : Nat) (b : List UInt8) : Nat × List UInt8 × Option String :=
  if s = 1 then (s + 1, b, some "failed") else (s + 1, b.map (fun _ => 7), none)

end Rand

/-! # The FIPS switch of TLS (`crypto/internal/boring/fipstls`, `tls.go`) -/

namespace Fipstls

/-- The bytes of a string literal: a Go string is a sequence of bytes. -/
def goString (s : String) : List UInt8 :=
  (s.data.map String.utf8EncodeChar).flatten

/-- Whether the string `s` is longer than `t` and ends with it. -/
def hasSuffix (s t : List UInt8) : Bool :=
  decide (s.length > t.length) && s.drop (s.length - t.length) == t

/-- The package variable `required`. -/
structure State where
  required : Nat

/-- The function `Force`: it stores 1 in `required`. -/
def Force (_ : State) : State := ⟨1⟩

/-- The function `Abandon`, with the program name that `runtime_arg0`
reports: the message of the panic, if it panics, and the state it leaves. -/
def Abandon (arg0 : List UInt8) (st : State) : Option (List UInt8) × State :=
  let name := arg0
  if !hasSuffix name (goString "_test") && !hasSuffix name (goString ".test") &&
      name != goString "NaClMain" && name != goString "" then
    (some (goString "fipstls: invalid use of Abandon in " ++ name), st)
  else
    (none, ⟨0⟩)

/-- The function `Required`: whether `required` is not 0. -/
def Required (st : State) : Bool := st.required != 0

end Fipstls

namespace Compare

/-! ## The field-run merger: properties -/

theorem field_some_of_lt (t : GoType) (i : Nat) (h : i < t.NumFields) :
    ∃ f, t.Field i = some f := by
  unfold GoType.Field GoType.NumFields at *
  exact ⟨t.FieldSlice[i], List.getElem?_eq_getElem h⟩

theorem field_lt_of_some (t : GoType) (i : Nat) (f : Field) (h : t.Field i = some f) :
    i < t.NumFields := by
  unfold GoType.Field GoType.NumFields at *
  by_contra hn
  rw [List.getElem?_eq_none (by omega)] at h
  cases h

theorem isPaddedField_some_of_lt (t : GoType) (i : Nat) (h : i < t.NumFields) :
    ∃ b, IsPaddedField t i = some b := by
  obtain ⟨f, hf⟩ := field_some_of_lt t i h
  unfold IsPaddedField
  by_cases h1 : i + 1 < t.NumFields
  · obtain ⟨g, hg⟩ := field_some_of_lt t (i + 1) h1
    simp [hf, hg, h1]
  · simp [hf, h1]

/-- The loop of `Memrun` ends within the struct, past fields that all prolong
the run, at the last field or at a stop condition. -/
theorem memrunLoop_spec (env : Env) (t : GoType) (start : Nat) (hs : start < t.NumFields) :
    ∀ fuel next0, start ≤ next0 → next0 < t.NumFields → t.NumFields - next0 ≤ fuel →
      ∃ next, memrunLoop env t start fuel next0 = some next ∧ next0 < next ∧
        next ≤ t.NumFields ∧
        (∀ j, next0 < j → j < next → RunExtends env t start j) ∧
        (next = t.NumFields ∨ RunStops env t start next) := by
  intro fuel
  induction fuel with
  | zero => intro next0 _ h1 h2; omega
  | succ fuel ih =>
    intro next0 hsn h1 h2
    unfold memrunLoop
    simp only
    by_cases hend : next0 + 1 = t.NumFields
    · refine ⟨next0 + 1, by simp [hend], by omega, by omega, ?_, Or.inl hend⟩
      intro j hj1 hj2; omega
    · have hlt : next0 + 1 < t.NumFields := by omega
      obtain ⟨b, hb⟩ := isPaddedField_some_of_lt t next0 h1
      obtain ⟨f, hf⟩ := field_some_of_lt t (next0 + 1) hlt
      obtain ⟨fs, hfs⟩ := field_some_of_lt t start hs
      have hb' : IsPaddedField t (next0 + 1 - 1) = some b := by simpa using hb
      rw [if_neg hend, hb']
      cases b with
      | true =>
        refine ⟨next0 + 1, rfl, by omega, by omega, ?_, Or.inr (Or.inl hb')⟩
        intro j hj1 hj2; omega
      | false =>
        simp only [hf]
        by_cases hbm : (f.Sym.IsBlank || !IsRegularMemory env f.Typ) = true
        · rw [if_pos hbm]
          refine ⟨next0 + 1, rfl, by omega, by omega, ?_, Or.inr (Or.inr (Or.inl ?_))⟩
          · intro j hj1 hj2; omega
          · refine ⟨f, hf, ?_⟩
            simpa using hbm
        · rw [if_neg hbm]
          have hbm' : f.Sym.IsBlank = false ∧ IsRegularMemory env f.Typ = true := by
            simpa using hbm
          obtain ⟨next, hn, hlt', hle, hall, hstop⟩ := ih (next0 + 1) (by omega) hlt (by omega)
          by_cases harch : env.ArchAlignment > 1
          · rw [if_pos harch]
            simp only [hfs]
            by_cases hsz : f.End - fs.Offset > memrunAlign t.Alignment fs.Offset
            · rw [if_pos hsz]
              refine ⟨next0 + 1, rfl, by omega, by omega, ?_, Or.inr (Or.inr (Or.inr ?_))⟩
              · intro j hj1 hj2; omega
              · exact ⟨harch, f, fs, hf, hfs, hsz⟩
            · rw [if_neg hsz]
              refine ⟨next, hn, by omega, hle, ?_, hstop⟩
              intro j hj1 hj2
              by_cases hj : j = next0 + 1
              · subst hj
                exact ⟨hb', f, fs, hf, hfs, hbm'.1, hbm'.2, fun _ => by omega⟩
              · exact hall j (by omega) hj2
          · rw [if_neg harch]
            refine ⟨next, hn, by omega, hle, ?_, hstop⟩
            intro j hj1 hj2
            by_cases hj : j = next0 + 1
            · subst hj
              exact ⟨hb', f, fs, hf, hfs, hbm'.1, hbm'.2, fun h => absurd h harch⟩
            · exact hall j (by omega) hj2

/-- From a start index within the struct `Memrun` returns, with the index
after the run and the span from the offset of the start field to the end of
the last field of the run. -/
theorem Memrun_spec (env : Env) (t : GoType) (start : Nat) (hs : start < t.NumFields) :
    ∃ next l fs, Memrun env t start = some (l.End - fs.Offset, next) ∧
      t.Field (next - 1) = some l ∧ t.Field start = some fs ∧
      start < next ∧ next ≤ t.NumFields ∧
      (∀ j, start < j → j < next → RunExtends env t start j) ∧
      (next = t.NumFields ∨ RunStops env t start next) := by
  obtain ⟨next, hn, hlt, hle, hall, hstop⟩ :=
    memrunLoop_spec env t start hs (t.NumFields + 1) start (le_refl _) hs (by omega)
  obtain ⟨l, hl⟩ := field_some_of_lt t (next - 1) (by omega)
  obtain ⟨fs, hfs⟩ := field_some_of_lt t start hs
  refine ⟨next, l, fs, ?_, hl, hfs, hlt, hle, hall, hstop⟩
  unfold Memrun
  simp [hn, hl, hfs]

theorem isPaddedField_false_end (t : GoType) (i : Nat) (f g : Field)
    (hp : IsPaddedField t i = some false) (hf : t.Field i = some f)
    (hg : t.Field (i + 1) = some g) : f.End = g.Offset := by
  have h1 : i + 1 < t.NumFields := field_lt_of_some t (i + 1) g hg
  unfold IsPaddedField at hp
  simp [hf, hg, h1] at hp
  exact hp

theorem sliceFields_succ (L : List Field) (s k : Nat) (x : Field) (hsk : s ≤ k)
    (hx : L[k]? = some x) : sliceFields L s (k + 1) = sliceFields L s k ++ [x] := by
  unfold sliceFields
  have hk : k < L.length := by
    by_contra hn
    rw [List.getElem?_eq_none (by omega)] at hx
    cases hx
  rw [List.take_succ, hx]
  simp only [Option.toList]
  rw [List.drop_append_of_le_length]
  rw [List.length_take]
  omega

theorem sliceFields_self (L : List Field) (s : Nat) : sliceFields L s s = [] := by
  unfold sliceFields
  apply List.drop_eq_nil_of_le
  rw [List.length_take]
  omega

theorem sliceFields_length (L : List Field) (s k : Nat) (hk : k ≤ L.length) :
    (sliceFields L s k).length = k - s := by
  unfold sliceFields
  rw [List.length_drop, List.length_take]
  omega

/-- In a stretch of fields without padding between them the span from the
offset of the first to the end of the last is the sum of their widths. -/
theorem span_eq_sum_widths (t : GoType) (start : Nat)
    (fs : Field) (hfs : t.Field start = some fs) :
    ∀ m l, t.Field (start + m) = some l →
      (∀ i f g, start ≤ i → i + 1 < start + m + 1 → t.Field i = some f →
        t.Field (i + 1) = some g → f.End = g.Offset) →
      l.End - fs.Offset =
        ((sliceFields t.FieldSlice start (start + m + 1)).map (fun f => f.Typ.width)).sum := by
  intro m
  induction m with
  | zero =>
    intro l hl _
    simp only [Nat.add_zero] at hl
    rw [hfs] at hl
    cases hl
    rw [sliceFields_succ t.FieldSlice start start fs (le_refl _) hfs, sliceFields_self]
    simp [Field.End]
  | succ m ih =>
    intro l hl hchain
    have hlt : start + m < t.NumFields := by
      have := field_lt_of_some t _ l hl
      omega
    obtain ⟨l0, hl0⟩ := field_some_of_lt t (start + m) hlt
    have h1 := ih l0 hl0 (fun i f g h1 h2 h3 h4 => hchain i f g h1 (by omega) h3 h4)
    have h2 := hchain (start + m) l0 l (by omega) (by omega) hl0 hl
    rw [show start + (m + 1) + 1 = (start + m + 1) + 1 by omega,
      sliceFields_succ t.FieldSlice start (start + m + 1) l (by omega) hl]
    rw [List.map_append, List.sum_append, ← h1]
    simp only [List.map_cons, List.map_nil, List.sum_cons, List.sum_nil]
    unfold Field.End at *
    omega

/-- C7, as amended.  From a start index within the struct `Memrun` returns
a run `[start, next)` such that, with no assumption on the start field,
every field of index in `(start, next)` is non-blank and can be compared as
regular memory; and when the start field is itself neither blank nor a
non-memory field (which `Memrun` does not test; `Struct` does before the
call), so is every field of index in `[start, next)`. -/
theorem Memrun_fields_regular (env : Env) (t : GoType) (start : Nat)
    (hs : start < t.NumFields) :
    ∃ size next, Memrun env t start = some (size, next) ∧
      (∀ i f, start < i → i < next → t.Field i = some f →
        f.Sym.IsBlank = false ∧ IsRegularMemory env f.Typ = true) ∧
      (∀ fs, t.Field start = some fs → fs.Sym.IsBlank = false →
        IsRegularMemory env fs.Typ = true →
        ∀ i f, start ≤ i → i < next → t.Field i = some f →
          f.Sym.IsBlank = false ∧ IsRegularMemory env f.Typ = true) := by
  obtain ⟨next, l, fs1, hm, _, _, _, _, hall, _⟩ := Memrun_spec env t start hs
  have hin : ∀ i f, start < i → i < next → t.Field i = some f →
      f.Sym.IsBlank = false ∧ IsRegularMemory env f.Typ = true := by
    intro i f h1 h2 hf
    obtain ⟨_, g, _, hg, _, hb, hmm, _⟩ := hall i h1 h2
    rw [hf] at hg
    cases hg
    exact ⟨hb, hmm⟩
  refine ⟨_, next, hm, hin, ?_⟩
  intro fs hfs hblank hmem i f h1 h2 hf
  by_cases hi : i = start
  · subst hi
    rw [hfs] at hf
    cases hf
    exact ⟨hblank, hmem⟩
  · exact hin i f (by omega) h2 hf

/-- C9.  From a start index within the struct `Memrun` returns a maximal
run: the index after the run is the number of fields, or a stop condition
holds there (padding after field `next - 1`, field `next` blank or not
memory-comparable, or the span up to the end of field `next` beyond the
alignment allowed on a target with minimum alignment above 1). -/
theorem Memrun_maximal (env : Env) (t : GoType) (start : Nat) (hs : start < t.NumFields) :
    ∃ size next, Memrun env t start = some (size, next) ∧ start < next ∧
      (next = t.NumFields ∨ RunStops env t start next) := by
  obtain ⟨next, l, fs, hm, _, _, hlt, _, _, hstop⟩ := Memrun_spec env t start hs
  exact ⟨_, next, hm, hlt, hstop⟩

/-- C10.  The memory of the run that `Memrun` returns has no padding: no
field of the run but the last is followed by padding, each ends where the
next begins, the run is not empty and within the struct, and the size, the
end of the last field less the offset of the first, is the sum of the widths
of the fields of the run. -/
theorem Memrun_no_padding (env : Env) (t : GoType) (start : Nat) (hs : start < t.NumFields) :
    ∃ size next l fs, Memrun env t start = some (size, next) ∧
      start < next ∧ next ≤ t.NumFields ∧
      (∀ i, start ≤ i → i + 1 < next → IsPaddedField t i = some false) ∧
      (∀ i f g, start ≤ i → i + 1 < next → t.Field i = some f →
        t.Field (i + 1) = some g → f.End = g.Offset) ∧
      t.Field (next - 1) = some l ∧ t.Field start = some fs ∧
      size = l.End - fs.Offset ∧
      size = ((sliceFields t.FieldSlice start next).map (fun f => f.Typ.width)).sum := by
  obtain ⟨next, l, fs, hm, hl, hfs, hlt, hle, hall, _⟩ := Memrun_spec env t start hs
  have hpad : ∀ i, start ≤ i → i + 1 < next → IsPaddedField t i = some false := by
    intro i h1 h2
    have := (hall (i + 1) (by omega) h2).1
    simpa using this
  have hchain : ∀ i f g, start ≤ i → i + 1 < next → t.Field i = some f →
      t.Field (i + 1) = some g → f.End = g.Offset := by
    intro i f g h1 h2 hf hg
    exact isPaddedField_false_end t i f g (hpad i h1 h2) hf hg
  refine ⟨_, next, l, fs, hm, hlt, hle, hpad, hchain, hl, hfs, rfl, ?_⟩
  obtain ⟨m, hm'⟩ : ∃ m, next = start + m + 1 := ⟨next - start - 1, by omega⟩
  subst hm'
  have hl' : t.Field (start + m) = some l := by simpa using hl
  exact span_eq_sum_widths t start fs hfs m l hl' hchain

/-- Two to the count of trailing zeros is the largest power of two that
divides a nonzero word. -/
theorem trailingZerosAux_spec : ∀ n x, 0 < x → x < 2 ^ n →
    2 ^ trailingZerosAux n x ∣ x ∧ ¬ 2 ^ (trailingZerosAux n x + 1) ∣ x := by
  intro n
  induction n with
  | zero => intro x h1 h2; simp at h2; omega
  | succ n ih =>
    intro x h1 h2
    unfold trailingZerosAux
    by_cases hodd : x % 2 = 1
    · rw [if_pos hodd]
      refine ⟨by simp, ?_⟩
      simp only [Nat.zero_add, Nat.pow_one]
      omega
    · rw [if_neg hodd]
      obtain ⟨y, hy⟩ : ∃ y, x = 2 * y := ⟨x / 2, by omega⟩
      have hy2 : x / 2 = y := by omega
      rw [hy2]
      have h3 : 0 < y := by omega
      have h4 : y < 2 ^ n := by
        rw [Nat.pow_succ] at h2
        omega
      obtain ⟨d1, d2⟩ := ih y h3 h4
      constructor
      · rw [hy, Nat.pow_succ, Nat.mul_comm]
        exact Nat.mul_dvd_mul_left 2 d1
      · intro hd
        apply d2
        rw [Nat.pow_succ, Nat.mul_comm, hy] at hd
        exact Nat.dvd_of_mul_dvd_mul_left (by norm_num) hd

theorem land_pow_two_sub_one (n a : Nat) :
    Int.land (n : Int) ((2 : Int) ^ a - 1) = ((n % 2 ^ a : Nat) : Int) := by
  have h : ((2 : Int) ^ a - 1) = ((2 ^ a - 1 : Nat) : Int) := by
    have := Nat.one_le_two_pow (n := a)
    push_cast [Nat.cast_sub this]
    rfl
  rw [h]
  show ((n &&& (2 ^ a - 1) : Nat) : Int) = _
  rw [Nat.and_pow_two_sub_one_eq_mod]

/-- The alignment that `Memrun` allows, for a struct alignment that is a
power of two and an offset in the non-negative range of `int64`: the struct
alignment when it divides the offset, else the largest power of two that
divides the offset. -/
theorem memrunAlign_spec (align off : Int) (a : Nat) (hal : align = 2 ^ a)
    (h0 : 0 ≤ off) (h63 : off < 2 ^ 63) :
    (align ∣ off → memrunAlign align off = align) ∧
    (¬ align ∣ off → ∃ k, memrunAlign align off = 2 ^ k ∧ (2 : Int) ^ k ∣ off ∧
      ¬ (2 : Int) ^ (k + 1) ∣ off) := by
  obtain ⟨n, rfl⟩ := Int.eq_ofNat_of_zero_le h0
  subst hal
  have hdvd : ((2 : Int) ^ a ∣ (n : Int)) ↔ n % 2 ^ a = 0 := by
    rw [← Nat.dvd_iff_mod_eq_zero]
    have : ((2 : Int) ^ a) = ((2 ^ a : Nat) : Int) := by push_cast; rfl
    rw [this, Int.natCast_dvd_natCast]
  have hn : n < 2 ^ 63 := by exact_mod_cast h63
  unfold memrunAlign
  rw [land_pow_two_sub_one]
  constructor
  · intro h
    rw [hdvd] at h
    simp [h]
  · intro h
    rw [hdvd] at h
    have hn0 : 0 < n := by
      rcases Nat.eq_zero_or_pos n with h' | h'
      · subst h'; simp at h
      · exact h'
    have hu : toUint64 (n : Int) = n := by
      unfold toUint64
      have : ((n : Int) % 2 ^ 64) = ((n % 2 ^ 64 : Nat) : Int) := by push_cast; rfl
      rw [this, Int.toNat_natCast]
      apply Nat.mod_eq_of_lt
      omega
    have hmod : n % 2 ^ 64 = n := Nat.mod_eq_of_lt (by omega)
    have htz : TrailingZeros64 n = trailingZerosAux 64 n := by
      unfold TrailingZeros64
      rw [hmod, if_neg (by omega)]
    obtain ⟨d1, d2⟩ := trailingZerosAux_spec 64 n hn0 (by omega)
    refine ⟨trailingZerosAux 64 n, ?_, ?_, ?_⟩
    · have hne : (((n % 2 ^ a : Nat) : Int) != 0) = true := by
        simp
        rw [hdvd]
        exact h
      rw [if_pos hne, hu, htz]
      have hle : 2 ^ trailingZerosAux 64 n ≤ n := Nat.le_of_dvd hn0 d1
      unfold toInt64
      have hlt : ((2 : Int) ^ trailingZerosAux 64 n) < 2 ^ 63 := by
        have : (2 ^ trailingZerosAux 64 n : Nat) < 2 ^ 63 := by omega
        exact_mod_cast this
      have hpos : (0 : Int) < 2 ^ trailingZerosAux 64 n := by positivity
      rw [Int.emod_eq_of_lt (by omega) (by omega)]
      omega
    · exact_mod_cast (Int.natCast_dvd_natCast.mpr d1)
    · intro hd
      apply d2
      have : (((2 ^ (trailingZerosAux 64 n + 1) : Nat) : Int)) ∣ (n : Int) := by
        push_cast
        exact hd
      exact Int.natCast_dvd_natCast.mp this
/-- C7, the claim as stated fails.  In `{s string; x int64}` the run from
field 0 is `[0, 2)`, and field 0, a string, is not memory-comparable. -/
theorem Memrun_start_field_unchecked :
    ¬ (∀ size next, Memrun (exampleEnv 1) stringFirstT 0 = some (size, next) →
        ∀ i f, 0 ≤ i → i < next → stringFirstT.Field i = some f →
          f.Sym.IsBlank = false ∧ IsRegularMemory (exampleEnv 1) f.Typ = true) := by
  intro h
  have h1 := h 24 2 (by decide) 0 (.mk ⟨"s"⟩ stringT 0) (le_refl _) (by decide) rfl
  exact absurd h1.2 (by decide)

/-- An instance of C7 as amended: the run from field 0 of
`{s string; x int64}`, whose start field is a string. -/
theorem Memrun_fields_regular_witness :
    ∃ size next, Memrun (exampleEnv 1) stringFirstT 0 = some (size, next) ∧
      (∀ i f, 0 < i → i < next → stringFirstT.Field i = some f →
        f.Sym.IsBlank = false ∧ IsRegularMemory (exampleEnv 1) f.Typ = true) ∧
      (∀ fs, stringFirstT.Field 0 = some fs → fs.Sym.IsBlank = false →
        IsRegularMemory (exampleEnv 1) fs.Typ = true →
        ∀ i f, 0 ≤ i → i < next → stringFirstT.Field i = some f →
          f.Sym.IsBlank = false ∧ IsRegularMemory (exampleEnv 1) f.Typ = true) :=
  Memrun_fields_regular (exampleEnv 1) stringFirstT 0 (by decide)

/-- An instance of C9: the run from field 0 of
`{a uint8; b uint8; c uint16; d int32}` on a target of minimum alignment 4. -/
theorem Memrun_maximal_witness :
    ∃ size next, Memrun (exampleEnv 4) smallFieldsT 0 = some (size, next) ∧ 0 < next ∧
      (next = smallFieldsT.NumFields ∨ RunStops (exampleEnv 4) smallFieldsT 0 next) :=
  Memrun_maximal (exampleEnv 4) smallFieldsT 0 (by decide)

/-- An instance of C10: the same run. -/
theorem Memrun_no_padding_witness :
    ∃ size next l fs, Memrun (exampleEnv 4) smallFieldsT 0 = some (size, next) ∧
      0 < next ∧ next ≤ smallFieldsT.NumFields ∧
      (∀ i, 0 ≤ i → i + 1 < next → IsPaddedField smallFieldsT i = some false) ∧
      (∀ i f g, 0 ≤ i → i + 1 < next → smallFieldsT.Field i = some f →
        smallFieldsT.Field (i + 1) = some g → f.End = g.Offset) ∧
      smallFieldsT.Field (next - 1) = some l ∧ smallFieldsT.Field 0 = some fs ∧
      size = l.End - fs.Offset ∧
      size = ((sliceFields smallFieldsT.FieldSlice 0 next).map (fun f => f.Typ.width)).sum :=
  Memrun_no_padding (exampleEnv 4) smallFieldsT 0 (by decide)

/-- C8, the claim as stated fails.  On a target of minimum alignment 8 the
run from field 0 of `{x [2]int64}` is the one field, of 16 bytes, while the
offset 0 is a multiple of the struct alignment 8, the alignment bound. -/
theorem Memrun_single_field_exceeds_align :
    Memrun (exampleEnv 8) oneArrayT 0 = some (16, 1) ∧
      1 < (exampleEnv 8).ArchAlignment ∧ oneArrayT.Alignment ∣ (0 : Int) ∧
      oneArrayT.Alignment = 8 ∧ ¬ ((16 : Int) ≤ oneArrayT.Alignment) := by
  decide

/-- C8, as amended.  On a target whose minimum access alignment is above 1,
for a struct whose alignment is a power of two and a start field at an
offset in the non-negative range of `int64`, the size of a run of two or
more fields that `Memrun` returns is at most the alignment bound: the struct
alignment if it divides the offset of the start field, otherwise the largest
power of two that divides that offset. -/
theorem Memrun_size_le_align (env : Env) (t : GoType) (start : Nat) (size : Int) (next : Nat)
    (fs : Field) (a : Nat) (harch : 1 < env.ArchAlignment)
    (hrun : Memrun env t start = some (size, next)) (hlen : start + 1 < next)
    (hfs : t.Field start = some fs) (hal : t.Alignment = 2 ^ a)
    (h0 : 0 ≤ fs.Offset) (h63 : fs.Offset < 2 ^ 63) :
    size ≤ memrunAlign t.Alignment fs.Offset ∧
    (t.Alignment ∣ fs.Offset → memrunAlign t.Alignment fs.Offset = t.Alignment) ∧
    (¬ t.Alignment ∣ fs.Offset → ∃ k, memrunAlign t.Alignment fs.Offset = 2 ^ k ∧
      (2 : Int) ^ k ∣ fs.Offset ∧ ¬ (2 : Int) ^ (k + 1) ∣ fs.Offset) := by
  obtain ⟨next1, l, fs1, hm, hl, hfs1, _, _, hall, _⟩ :=
    Memrun_spec env t start (field_lt_of_some t start fs hfs)
  rw [hrun] at hm
  rw [hfs] at hfs1
  cases hfs1
  have hpair := Option.some.inj hm
  have hnext : next = next1 := congrArg Prod.snd hpair
  have hsize : size = l.End - fs.Offset := congrArg Prod.fst hpair
  subst hnext
  obtain ⟨_, g, gs, hg, hgs, _, _, hle⟩ := hall (next - 1) (by omega) (by omega)
  rw [hl] at hg
  rw [hfs] at hgs
  cases hg
  cases hgs
  exact ⟨hsize ▸ hle harch, memrunAlign_spec t.Alignment fs.Offset a hal h0 h63⟩

/-- An instance of C8 as amended: the same run, of three fields and 4 bytes. -/
theorem Memrun_size_le_align_witness :
    (4 : Int) ≤ memrunAlign smallFieldsT.Alignment 0 ∧
    (smallFieldsT.Alignment ∣ (0 : Int) →
      memrunAlign smallFieldsT.Alignment 0 = smallFieldsT.Alignment) ∧
    (¬ smallFieldsT.Alignment ∣ (0 : Int) → ∃ k, memrunAlign smallFieldsT.Alignment 0 = 2 ^ k ∧
      (2 : Int) ^ k ∣ (0 : Int) ∧ ¬ (2 : Int) ^ (k + 1) ∣ (0 : Int)) :=
  Memrun_size_le_align (exampleEnv 4) smallFieldsT 0 4 3 (.mk ⟨"a"⟩ uint8T 0) 2
    (by decide) (by decide) (by decide) rfl (by decide) (by decide) (by decide)

/-! ## The reordering pass: properties -/

theorem insertStable_noncall (a : Node) (h : isCall a = false) (l : List Node) :
    insertStable callLess a l = a :: l := by
  cases l with
  | nil => rfl
  | cons b l => simp [insertStable, callLess, h]

theorem insertStable_call (a : Node) (h : isCall a = true) :
    ∀ (nc cs : List Node), (∀ x ∈ nc, isCall x = false) → (∀ x ∈ cs, isCall x = true) →
      insertStable callLess a (nc ++ cs) = nc ++ a :: cs := by
  intro nc
  induction nc with
  | nil =>
    intro cs _ hcs
    cases cs with
    | nil => rfl
    | cons b l =>
      have hb : isCall b = true := hcs b (List.mem_cons_self _ _)
      simp [insertStable, callLess, hb]
  | cons b nc ih =>
    intro cs hnc hcs
    have hb : isCall b = false := hnc b (List.mem_cons_self _ _)
    have := ih cs (fun x hx => hnc x (List.mem_cons_of_mem _ hx)) hcs
    simp [insertStable, callLess, hb, h, this]

/-- The sort of a group puts the conditions that are not calls first and the
calls last, each class in the order it had. -/
theorem SliceStable_callLess (c : List Node) :
    SliceStable callLess c = c.filter (fun n => !isCall n) ++ c.filter isCall := by
  induction c with
  | nil => rfl
  | cons a l ih =>
    unfold SliceStable
    rw [ih]
    cases h : isCall a with
    | false =>
      rw [insertStable_noncall a h]
      simp [List.filter_cons, h]
    | true =>
      rw [insertStable_call a h _ _ (by simp) (by simp)]
      simp [List.filter_cons, h]

theorem SliceStable_perm (c : List Node) : (SliceStable callLess c).Perm c := by
  rw [SliceStable_callLess]
  induction c with
  | nil => simp
  | cons a l ih =>
    cases h : isCall a with
    | false =>
      simp only [List.filter_cons, h, Bool.not_false, if_true]
      simpa using ih
    | true =>
      simp only [List.filter_cons, h, Bool.not_true, if_true]
      simp only [Bool.false_eq_true, ↓reduceIte]
      exact List.perm_middle.trans (List.Perm.cons a ih)

theorem SliceStable_filter_call (c : List Node) :
    (SliceStable callLess c).filter isCall = c.filter isCall := by
  rw [SliceStable_callLess, List.filter_append, List.filter_filter, List.filter_filter]
  simp

theorem SliceStable_filter_noncall (c : List Node) :
    (SliceStable callLess c).filter (fun n => !isCall n) = c.filter (fun n => !isCall n) := by
  rw [SliceStable_callLess, List.filter_append, List.filter_filter, List.filter_filter]
  simp

theorem flatConds_append (c d : List (List Node)) :
    flatConds (c ++ d) = flatConds c ++ flatConds d := by
  simp [flatConds]

theorem flatConds_singleton (n : Node) : flatConds [[n]] = [n] := by
  simp [flatConds, SliceStable, insertStable]

/-! ## The walk of `Struct`: properties -/

theorem andCond_ne_nil (d : List (List Node)) (n : Node) : andCond d n ≠ [] := by
  match d with
  | [] => simp [andCond]
  | [c] => simp [andCond]
  | c :: c' :: cs => simp [andCond]

theorem andCond_append (pre d : List (List Node)) (n : Node) (hd : d ≠ []) :
    andCond (pre ++ d) n = pre ++ andCond d n := by
  induction pre with
  | nil => rfl
  | cons p pre ih =>
    cases hpd : pre ++ d with
    | nil =>
      have : d = [] := (List.append_eq_nil.mp hpd).2
      exact absurd this hd
    | cons x xs =>
      rw [List.cons_append, hpd]
      rw [hpd] at ih
      simp only [andCond]
      rw [ih]
      simp

theorem andCond_graft (pre : List (List Node)) (g : List Node) (d : List (List Node))
    (n : Node) (hd : d ≠ []) : andCond (graft pre g d) n = graft pre g (andCond d n) := by
  match d with
  | [] => exact absurd rfl hd
  | [c] =>
    simp only [graft, andCond]
    rw [andCond_append _ _ _ (by simp)]
    simp [andCond]
  | c :: c' :: cs =>
    simp only [graft, andCond]
    rw [andCond_append _ _ _ (by simp)]
    simp only [andCond]

theorem foldl_andCond_ne_nil (ops : List Node) :
    ∀ d : List (List Node), d ≠ [] → ops.foldl andCond d ≠ [] := by
  induction ops with
  | nil => intro d hd; exact hd
  | cons o ops ih => intro d _; exact ih _ (andCond_ne_nil d o)

theorem foldl_andCond_graft (pre : List (List Node)) (g : List Node) (ops : List Node) :
    ∀ d : List (List Node), d ≠ [] →
      ops.foldl andCond (graft pre g d) = graft pre g (ops.foldl andCond d) := by
  induction ops with
  | nil => intro d _; rfl
  | cons o ops ih =>
    intro d hd
    simp only [List.foldl_cons]
    rw [andCond_graft pre g d o hd]
    exact ih _ (andCond_ne_nil d o)

theorem graft_append (pre : List (List Node)) (g : List Node) (d e : List (List Node))
    (hd : d ≠ []) : graft pre g d ++ e = graft pre g (d ++ e) := by
  cases d with
  | nil => exact absurd rfl hd
  | cons d0 ds => simp [graft]

theorem foldl_andCond_single (pre : List (List Node)) (g ops : List Node) :
    ops.foldl andCond (pre ++ [g]) = pre ++ [g ++ ops] := by
  induction ops generalizing g with
  | nil => simp
  | cons o ops ih =>
    simp only [List.foldl_cons]
    rw [andCond_append _ _ _ (by simp)]
    simp only [andCond]
    rw [ih]
    simp

theorem structStep_blank (env : Env) (t : GoType) (op : Op) (np nq : Node) (i : Nat)
    (c : List (List Node)) (f : Field) (hf : t.Field i = some f)
    (hb : f.Sym.IsBlank = true) :
    structStep env t op np nq i c = some (i + 1, c) := by
  unfold GoType.Field at hf
  unfold structStep
  simp [hf, hb]

theorem structStep_nonmem (env : Env) (t : GoType) (op : Op) (np nq : Node) (i : Nat)
    (c : List (List Node)) (f : Field) (hf : t.Field i = some f)
    (hb : f.Sym.IsBlank = false) (hm : IsRegularMemory env f.Typ = false) :
    structStep env t op np nq i c =
      some (i + 1,
        if EqCanPanic f.Typ then
          (nonMemConds op np nq f).foldl andCond (c ++ [[]]) ++ [[]]
        else (nonMemConds op np nq f).foldl andCond c) := by
  unfold GoType.Field at hf
  unfold structStep
  by_cases hp : EqCanPanic f.Typ = true <;> simp [hf, hb, hm, hp]

theorem structStep_mem (env : Env) (t : GoType) (op : Op) (np nq : Node) (i : Nat)
    (c : List (List Node)) (f : Field) (size : Int) (next : Nat) (hf : t.Field i = some f)
    (hb : f.Sym.IsBlank = false) (hm : IsRegularMemory env f.Typ = true)
    (hrun : Memrun env t i = some (size, next)) :
    structStep env t op np nq i c =
      some (next,
        (memConds op np nq f (sliceFields t.FieldSlice i next) size).foldl andCond c) := by
  unfold GoType.Field at hf
  unfold structStep
  simp [hf, hb, hm, hrun]

/-- An iteration of the loop of `Struct` at a field of the struct ends, at
a later index within the struct, and leaves at least one group. -/
theorem structStep_progress (env : Env) (t : GoType) (op : Op) (np nq : Node) (i : Nat)
    (c : List (List Node)) (hi : i < t.NumFields) :
    ∃ i' c', structStep env t op np nq i c = some (i', c') ∧ i < i' ∧ i' ≤ t.NumFields ∧
      (c ≠ [] → c' ≠ []) := by
  obtain ⟨f, hf⟩ := field_some_of_lt t i hi
  by_cases hb : f.Sym.IsBlank = true
  · exact ⟨i + 1, c, structStep_blank env t op np nq i c f hf hb, by omega, by omega, id⟩
  · have hb' : f.Sym.IsBlank = false := by simpa using hb
    by_cases hm : IsRegularMemory env f.Typ = true
    · obtain ⟨next, l, fs, hrun, _, _, hlt, hle, _, _⟩ := Memrun_spec env t i hi
      exact ⟨next, _, structStep_mem env t op np nq i c f _ next hf hb' hm hrun, hlt, hle,
        fun hc => foldl_andCond_ne_nil _ _ hc⟩
    · have hm' : IsRegularMemory env f.Typ = false := by simpa using hm
      refine ⟨i + 1, _, structStep_nonmem env t op np nq i c f hf hb' hm', by omega,
        by omega, ?_⟩
      intro hc
      by_cases hp : EqCanPanic f.Typ = true
      · simp [hp]
      · simp only [hp]
        exact foldl_andCond_ne_nil _ _ hc

/-- An iteration of the loop of `Struct` acts on the last group only: behind
other groups it does what it does without them. -/
theorem structStep_graft (env : Env) (t : GoType) (op : Op) (np nq : Node) (i : Nat)
    (pre : List (List Node)) (g : List Node) (d : List (List Node)) (hd : d ≠ []) :
    structStep env t op np nq i (graft pre g d) =
      Option.map (fun r => (r.1, graft pre g r.2)) (structStep env t op np nq i d) := by
  by_cases hi : i < t.NumFields
  · obtain ⟨f, hf⟩ := field_some_of_lt t i hi
    by_cases hb : f.Sym.IsBlank = true
    · rw [structStep_blank env t op np nq i _ f hf hb,
        structStep_blank env t op np nq i _ f hf hb]
      rfl
    · have hb' : f.Sym.IsBlank = false := by simpa using hb
      by_cases hm : IsRegularMemory env f.Typ = true
      · obtain ⟨next, l, fs, hrun, _⟩ := Memrun_spec env t i hi
        rw [structStep_mem env t op np nq i _ f _ next hf hb' hm hrun,
          structStep_mem env t op np nq i _ f _ next hf hb' hm hrun]
        simp only [Option.map_some']
        rw [foldl_andCond_graft pre g _ d hd]
      · have hm' : IsRegularMemory env f.Typ = false := by simpa using hm
        rw [structStep_nonmem env t op np nq i _ f hf hb' hm',
          structStep_nonmem env t op np nq i _ f hf hb' hm']
        simp only [Option.map_some']
        by_cases hp : EqCanPanic f.Typ = true
        · simp only [hp, if_true]
          rw [graft_append pre g d _ hd, foldl_andCond_graft pre g _ _ (by simp),
            graft_append pre g _ _ (foldl_andCond_ne_nil _ _ (by simp))]
        · simp only [hp]
          rw [foldl_andCond_graft pre g _ d hd]
          rfl
  · have hn : t.FieldSlice[i]? = none := by
      unfold GoType.NumFields at hi
      exact List.getElem?_eq_none (by omega)
    unfold structStep
    simp [hn]

/-- The walk of `Struct` behind other groups is the walk without them. -/
theorem structLoop_graft (env : Env) (t : GoType) (op : Op) (np nq : Node)
    (pre : List (List Node)) (g : List Node) :
    ∀ fuel i (d : List (List Node)), d ≠ [] →
      structLoop env t op np nq fuel i (graft pre g d) =
        Option.map (graft pre g) (structLoop env t op np nq fuel i d) := by
  intro fuel
  induction fuel with
  | zero =>
    intro i d _
    unfold structLoop
    by_cases hi : i < t.FieldSlice.length <;> simp [hi]
  | succ fuel ih =>
    intro i d hd
    unfold structLoop
    by_cases hi : i < t.FieldSlice.length
    · simp only [hi, if_true]
      obtain ⟨i', c', hstep, _, _, hne⟩ := structStep_progress env t op np nq i d hi
      rw [structStep_graft env t op np nq i pre g d hd, hstep]
      simp only [Option.map_some']
      exact ih i' c' (hne hd)
    · simp [hi]

/-- More fuel than the fields left does not change the walk. -/
theorem structLoop_succ (env : Env) (t : GoType) (op : Op) (np nq : Node) :
    ∀ fuel i (c : List (List Node)), t.NumFields - i ≤ fuel →
      structLoop env t op np nq (fuel + 1) i c = structLoop env t op np nq fuel i c := by
  intro fuel
  induction fuel with
  | zero =>
    intro i c h
    have hi : ¬ i < t.FieldSlice.length := by
      unfold GoType.NumFields at h
      omega
    simp [structLoop, hi]
  | succ fuel ih =>
    intro i c h
    rw [structLoop]
    conv_rhs => rw [structLoop]
    by_cases hi : i < t.FieldSlice.length
    · simp only [hi, if_true]
      obtain ⟨i', c', hstep, hlt, _, _⟩ := structStep_progress env t op np nq i c hi
      rw [hstep]
      exact ih i' c' (by omega)
    · simp [hi]

theorem structLoop_fuel (env : Env) (t : GoType) (op : Op) (np nq : Node) (i : Nat)
    (c : List (List Node)) :
    ∀ extra fuel, t.NumFields - i ≤ fuel →
      structLoop env t op np nq (fuel + extra) i c = structLoop env t op np nq fuel i c := by
  intro extra
  induction extra with
  | zero => intro fuel _; rfl
  | succ extra ih =>
    intro fuel h
    rw [← Nat.add_assoc, structLoop_succ env t op np nq (fuel + extra) i c (by omega)]
    exact ih fuel h

/-- With fuel for the fields left the walk of `Struct` ends. -/
theorem structLoop_total (env : Env) (t : GoType) (op : Op) (np nq : Node) :
    ∀ fuel i (c : List (List Node)), t.NumFields - i ≤ fuel →
      ∃ r, structLoop env t op np nq fuel i c = some r := by
  intro fuel
  induction fuel with
  | zero =>
    intro i c h
    have hi : ¬ i < t.FieldSlice.length := by
      unfold GoType.NumFields at h
      omega
    exact ⟨c, by simp [structLoop, hi]⟩
  | succ fuel ih =>
    intro i c h
    rw [structLoop]
    by_cases hi : i < t.FieldSlice.length
    · simp only [hi, if_true]
      obtain ⟨i', c', hstep, hlt, _, _⟩ := structStep_progress env t op np nq i c hi
      rw [hstep]
      exact ih i' c' (by omega)
    · exact ⟨c, by simp [hi]⟩

/-- The walk from a state is the walk from any state it reaches. -/
theorem structIter_loop (env : Env) (t : GoType) (op : Op) (np nq : Node) :
    ∀ n i (c : List (List Node)) k ck, structIter env t op np nq n i c = some (k, ck) →
      ∀ fuel, structLoop env t op np nq (fuel + n) i c = structLoop env t op np nq fuel k ck := by
  intro n
  induction n with
  | zero =>
    intro i c k ck h fuel
    simp only [structIter, Option.some.injEq, Prod.mk.injEq] at h
    rw [h.1, h.2]
    rfl
  | succ n ih =>
    intro i c k ck h fuel
    rw [structIter] at h
    by_cases hi : i < t.FieldSlice.length
    · simp only [hi, if_true] at h
      rw [← Nat.add_assoc, structLoop]
      simp only [hi, if_true]
      cases hstep : structStep env t op np nq i c with
      | none => rw [hstep] at h; cases h
      | some r =>
        obtain ⟨i', c'⟩ := r
        rw [hstep] at h
        exact ih i' c' k ck h fuel
    · simp [hi] at h

/-- The walk of `Struct` stops at every field that is blank or is not
memory-comparable: no run of `Memrun` goes over it. -/
theorem structIter_reaches (env : Env) (t : GoType) (op : Op) (np nq : Node) (k : Nat)
    (f : Field) (hf : t.Field k = some f)
    (hbm : f.Sym.IsBlank = true ∨ IsRegularMemory env f.Typ = false) :
    ∀ m i (c : List (List Node)), k - i ≤ m → i ≤ k → c ≠ [] →
      ∃ n ck, structIter env t op np nq n i c = some (k, ck) ∧ ck ≠ [] := by
  have hk : k < t.NumFields := field_lt_of_some t k f hf
  intro m
  induction m with
  | zero =>
    intro i c h1 h2 hc
    have : i = k := by omega
    subst this
    exact ⟨0, c, rfl, hc⟩
  | succ m ih =>
    intro i c h1 h2 hc
    by_cases hik : i = k
    · subst hik
      exact ⟨0, c, rfl, hc⟩
    · have hi : i < t.NumFields := by omega
      obtain ⟨i', c', hstep, hlt, hle, hne⟩ := structStep_progress env t op np nq i c hi
      have hi'k : i' ≤ k := by
        by_contra hcon
        obtain ⟨fi, hfi⟩ := field_some_of_lt t i hi
        by_cases hb : fi.Sym.IsBlank = true
        · rw [structStep_blank env t op np nq i c fi hfi hb] at hstep
          simp only [Option.some.injEq, Prod.mk.injEq] at hstep
          omega
        · have hb' : fi.Sym.IsBlank = false := by simpa using hb
          by_cases hm : IsRegularMemory env fi.Typ = true
          · obtain ⟨next, l, fs, hrun, _, _, _, _, hall, _⟩ := Memrun_spec env t i hi
            rw [structStep_mem env t op np nq i c fi _ next hfi hb' hm hrun] at hstep
            simp only [Option.some.injEq, Prod.mk.injEq] at hstep
            obtain ⟨_, g, _, hg, _, hgb, hgm, _⟩ := hall k (by omega) (by omega)
            rw [hf] at hg
            cases hg
            rcases hbm with h | h
            · rw [h] at hgb; cases hgb
            · rw [h] at hgm; cases hgm
          · have hm' : IsRegularMemory env fi.Typ = false := by simpa using hm
            rw [structStep_nonmem env t op np nq i c fi hfi hb' hm'] at hstep
            simp only [Option.some.injEq, Prod.mk.injEq] at hstep
            omega
      obtain ⟨n, ck, hn, hck⟩ := ih i' c' (by omega) hi'k (hne hc)
      refine ⟨n + 1, ck, ?_, hck⟩
      rw [structIter]
      have hi2 : i < t.FieldSlice.length := hi
      simp only [hi2, if_true, hstep]
      exact hn

theorem structIter_ne_nil (env : Env) (t : GoType) (op : Op) (np nq : Node) :
    ∀ n i (c : List (List Node)) k ck, structIter env t op np nq n i c = some (k, ck) →
      c ≠ [] → ck ≠ [] := by
  intro n
  induction n with
  | zero =>
    intro i c k ck h hc
    simp only [structIter, Option.some.injEq, Prod.mk.injEq] at h
    rw [← h.2]
    exact hc
  | succ n ih =>
    intro i c k ck h hc
    rw [structIter] at h
    by_cases hi : i < t.FieldSlice.length
    · simp only [hi, if_true] at h
      obtain ⟨i', c', hstep, _, _, hne⟩ := structStep_progress env t op np nq i c hi
      rw [hstep] at h
      exact ih i' c' k ck h (hne hc)
    · simp [hi] at h

theorem flatConds_graft (pre : List (List Node)) (g : List Node) (d : List (List Node)) :
    ∃ x rest, flatConds (graft pre g d) =
      flatConds pre ++ SliceStable callLess (g ++ x) ++ rest := by
  cases d with
  | nil =>
    refine ⟨[], [], ?_⟩
    simp [graft, flatConds]
  | cons d0 ds =>
    refine ⟨d0, flatConds ds, ?_⟩
    simp [graft, flatConds]

theorem flatConds_graft_nil (pre d : List (List Node)) :
    flatConds (graft pre [] d) = flatConds pre ++ flatConds d := by
  cases d with
  | nil => simp [graft, flatConds, SliceStable]
  | cons d0 ds => simp [graft, flatConds]

theorem mem_flatConds (o : Node) (c : List (List Node)) :
    o ∈ flatConds c ↔ o ∈ c.flatten := by
  unfold flatConds
  simp only [List.mem_flatten, List.mem_map]
  constructor
  · rintro ⟨l, ⟨grp, hg, rfl⟩, ho⟩
    exact ⟨grp, hg, (SliceStable_perm grp).mem_iff.mp ho⟩
  · rintro ⟨grp, hg, ho⟩
    exact ⟨_, ⟨grp, hg, rfl⟩, (SliceStable_perm grp).mem_iff.mpr ho⟩

theorem mem_graft (o : Node) (pre : List (List Node)) (g : List Node) (d : List (List Node))
    (h : o ∈ (pre ++ [g]).flatten) : o ∈ (graft pre g d).flatten := by
  cases d with
  | nil => simpa [graft] using h
  | cons d0 ds =>
    simp only [graft, List.flatten_append, List.flatten_cons, List.mem_append,
      List.flatten_nil, List.append_nil] at *
    rcases h with h | h
    · exact Or.inl h
    · exact Or.inr (Or.inl (Or.inl h))

/-- The result of `Struct` from a state of its walk: when the walk is at
field `k` after some iterations and the next iteration leaves the groups
`pre` and the open group `g`, the result is that of the walk of the fields
left, moved behind `pre` and `g`. -/
theorem Struct_from_state (env : Env) (t : GoType) (op : Op) (np nq : Node) (n k k' : Nat)
    (ck pre : List (List Node)) (g : List Node) (hk : k < t.NumFields)
    (hreach : structIter env t op np nq n 0 [[]] = some (k, ck))
    (hstep : structStep env t op np nq k ck = some (k', pre ++ [g])) :
    ∃ after, structLoop env t op np nq t.FieldSlice.length k' [[]] = some after ∧
      Struct env t op np nq = some (flatConds (graft pre g after)) := by
  obtain ⟨k1, c1, hstep1, hlt, _, _⟩ := structStep_progress env t op np nq k ck hk
  rw [hstep] at hstep1
  simp only [Option.some.injEq, Prod.mk.injEq] at hstep1
  obtain ⟨rfl, _⟩ := hstep1
  obtain ⟨after, hafter⟩ :=
    structLoop_total env t op np nq t.FieldSlice.length k' [[]]
      (by unfold GoType.NumFields; omega)
  refine ⟨after, hafter, ?_⟩
  have h1 : structLoop env t op np nq t.FieldSlice.length 0 [[]] =
      structLoop env t op np nq t.FieldSlice.length k ck := by
    rw [← structLoop_fuel env t op np nq 0 [[]] n t.FieldSlice.length
      (by unfold GoType.NumFields; omega)]
    exact structIter_loop env t op np nq n 0 [[]] k ck hreach _
  obtain ⟨L, hL⟩ : ∃ L, t.FieldSlice.length = L + 1 :=
    ⟨t.FieldSlice.length - 1, by unfold GoType.NumFields at hk; omega⟩
  have hk2 : k < t.FieldSlice.length := hk
  have h2 : structLoop env t op np nq (L + 1) k ck =
      Option.map (graft pre g) (structLoop env t op np nq L k' [[]]) := by
    rw [structLoop]
    simp only [hk2, if_true, hstep]
    have := structLoop_graft env t op np nq pre g L k' [[]] (by simp)
    simpa [graft] using this
  have h3 : structLoop env t op np nq L k' [[]] = some after := by
    rw [← structLoop_succ env t op np nq L k' [[]] (by unfold GoType.NumFields; omega),
      ← hL]
    exact hafter
  unfold Struct
  rw [h1, hL, h2, h3]
  rfl

/-- Every condition in the groups after an iteration of the walk of
`Struct` is in the result. -/
theorem Struct_mem_of_state (env : Env) (t : GoType) (op : Op) (np nq : Node) (n k k' : Nat)
    (ck c' : List (List Node)) (hk : k < t.NumFields)
    (hreach : structIter env t op np nq n 0 [[]] = some (k, ck))
    (hstep : structStep env t op np nq k ck = some (k', c')) :
    ∃ out, Struct env t op np nq = some out ∧ ∀ o, o ∈ c'.flatten → o ∈ out := by
  have hck : ck ≠ [] := structIter_ne_nil env t op np nq n 0 [[]] k ck hreach (by simp)
  obtain ⟨k1, c1, hstep1, _, _, hne⟩ := structStep_progress env t op np nq k ck hk
  rw [hstep] at hstep1
  simp only [Option.some.injEq, Prod.mk.injEq] at hstep1
  obtain ⟨rfl, rfl⟩ := hstep1
  have hc' : c' ≠ [] := hne hck
  have hdec : c' = c'.dropLast ++ [c'.getLast hc'] := (List.dropLast_append_getLast hc').symm
  rw [hdec] at hstep
  obtain ⟨after, _, hS⟩ :=
    Struct_from_state env t op np nq n k k' ck _ _ hk hreach hstep
  refine ⟨_, hS, ?_⟩
  intro o ho
  rw [mem_flatConds]
  apply mem_graft
  rw [← hdec]
  exact ho

theorem isString_of_eqCanPanic (ty : GoType) (h : EqCanPanic ty = true) :
    ty.IsString = false := by
  cases ty with
  | leaf k w a => simp [EqCanPanic] at h
  | inter ms w a => rfl
  | array e b w a => rfl
  | struct fs w a => rfl

theorem eqCanPanic_of_isInterface (ty : GoType) (h : ty.IsInterface = true) :
    EqCanPanic ty = true ∧ ty.IsString = false := by
  cases ty with
  | leaf k w a => cases k <;> simp [GoType.IsInterface, GoType.Kind, Leaf.toKind] at h
  | inter ms w a => exact ⟨by simp [EqCanPanic], rfl⟩
  | array e b w a => simp [GoType.IsInterface, GoType.Kind] at h
  | struct fs w a => simp [GoType.IsInterface, GoType.Kind] at h

theorem nonMemConds_string (op : Op) (np nq : Node) (f : Field) (h : f.Typ.IsString = true) :
    nonMemConds op np nq f =
      [if op ≠ .OEQ then
          (EqString (.SelectorExpr .OXDOT np f.Sym) (.SelectorExpr .OXDOT nq f.Sym)).1.SetOp op
        else (EqString (.SelectorExpr .OXDOT np f.Sym) (.SelectorExpr .OXDOT nq f.Sym)).1,
       if op ≠ .OEQ then
          .UnaryExpr .ONOT
            (EqString (.SelectorExpr .OXDOT np f.Sym) (.SelectorExpr .OXDOT nq f.Sym)).2
        else (EqString (.SelectorExpr .OXDOT np f.Sym) (.SelectorExpr .OXDOT nq f.Sym)).2] := by
  unfold nonMemConds
  simp only [h, if_true]

theorem nonMemConds_other (op : Op) (np nq : Node) (f : Field) (h : f.Typ.IsString = false) :
    nonMemConds op np nq f =
      [.BinaryExpr op (.SelectorExpr .OXDOT np f.Sym) (.SelectorExpr .OXDOT nq f.Sym)] := by
  unfold nonMemConds
  simp [h]

theorem SliceStable_pair (g x : List Node) (e c : Node) (he : isCall e = false) :
    ∃ X Y Z, SliceStable callLess (g ++ [e, c] ++ x) = X ++ [e] ++ Y ++ [c] ++ Z := by
  rw [SliceStable_callLess]
  cases hc : isCall c with
  | false =>
    refine ⟨g.filter (fun n => !isCall n), [],
      x.filter (fun n => !isCall n) ++ (g ++ [e, c] ++ x).filter isCall, ?_⟩
    simp [List.filter_append, List.filter_cons, he, hc]
  | true =>
    refine ⟨g.filter (fun n => !isCall n), x.filter (fun n => !isCall n) ++ g.filter isCall,
      x.filter isCall, ?_⟩
    simp [List.filter_append, List.filter_cons, he, hc]

/-! ## The synthesizer: the claims -/

/-- C1.  Group isolation: for a field `k` that is not blank, is not
memory-comparable and whose comparison can panic, the result of `Struct` is
the conditions of the fields before `k` (the groups the walk has when it
reaches `k`, each sorted), then the one condition of field `k`, then the
conditions of the fields after `k` (the groups of the walk of the fields
from `k + 1`, each sorted): the reordering moves nothing across field `k`. -/
theorem Struct_isolates_panicking_field (env : Env) (t : GoType) (op : Op) (np nq : Node)
    (k : Nat) (f : Field) (hf : t.Field k = some f) (hb : f.Sym.IsBlank = false)
    (hm : IsRegularMemory env f.Typ = false) (hp : EqCanPanic f.Typ = true) :
    ∃ n before after,
      structIter env t op np nq n 0 [[]] = some (k, before) ∧
      structLoop env t op np nq t.FieldSlice.length (k + 1) [[]] = some after ∧
      Struct env t op np nq =
        some (flatConds before ++
          [.BinaryExpr op (.SelectorExpr .OXDOT np f.Sym) (.SelectorExpr .OXDOT nq f.Sym)] ++
          flatConds after) := by
  obtain ⟨n, ck, hreach, _⟩ :=
    structIter_reaches env t op np nq k f hf (Or.inr hm) k 0 [[]] (by omega) (by omega) (by simp)
  have hk := field_lt_of_some t k f hf
  have hstep := structStep_nonmem env t op np nq k ck f hf hb hm
  rw [nonMemConds_other op np nq f (isString_of_eqCanPanic _ hp)] at hstep
  simp only [hp, if_true] at hstep
  rw [foldl_andCond_single] at hstep
  simp only [List.nil_append] at hstep
  rw [List.append_assoc] at hstep
  have hstep' : structStep env t op np nq k ck = some (k + 1,
      (ck ++ [[.BinaryExpr op (.SelectorExpr .OXDOT np f.Sym)
        (.SelectorExpr .OXDOT nq f.Sym)]]) ++ [[]]) := by
    rw [hstep]; simp
  obtain ⟨after, hafter, hS⟩ :=
    Struct_from_state env t op np nq n k (k + 1) ck _ _ hk hreach hstep'
  refine ⟨n, ck, after, hreach, hafter, ?_⟩
  rw [hS, flatConds_graft_nil, flatConds_append, flatConds_singleton]

/-- C2.  Field-count threshold: when the walk of `Struct` is at a field `i`
that is not blank and is memory-comparable, and `Memrun` returns the size
`size` and the index `next` there, the iteration goes to `next` and adds to
the open group, for a run of at most two fields, one plain comparison per
field of the run in field order and nothing else, and for a longer run the
one `memequal` call on field `i` with the size `size` (negated when `op` is
not `OEQ`) and nothing else; what it adds is in the result of `Struct`. -/
theorem Struct_run_threshold (env : Env) (t : GoType) (op : Op) (np nq : Node)
    (n i : Nat) (ci : List (List Node)) (f : Field) (size : Int) (next : Nat)
    (hreach : structIter env t op np nq n 0 [[]] = some (i, ci))
    (hf : t.Field i = some f) (hb : f.Sym.IsBlank = false)
    (hm : IsRegularMemory env f.Typ = true)
    (hrun : Memrun env t i = some (size, next)) :
    ∃ ops, structStep env t op np nq i ci = some (next, ops.foldl andCond ci) ∧
      (next - i ≤ 2 →
        ops = (sliceFields t.FieldSlice i next).map (fun g => eqfield np nq op g.Sym) ∧
        ops.length = next - i) ∧
      (2 < next - i →
        ops = [if op ≠ .OEQ then .UnaryExpr .ONOT (eqmem np nq f.Sym size)
               else eqmem np nq f.Sym size]) ∧
      ∃ out, Struct env t op np nq = some out ∧ ∀ o ∈ ops, o ∈ out := by
  have hi := field_lt_of_some t i f hf
  have hstep := structStep_mem env t op np nq i ci f size next hf hb hm hrun
  obtain ⟨next1, l, fs, hrun1, _, _, _, hle, _, _⟩ := Memrun_spec env t i hi
  rw [hrun] at hrun1
  have hnext : next = next1 := congrArg Prod.snd (Option.some.inj hrun1)
  subst hnext
  have hlen : (sliceFields t.FieldSlice i next).length = next - i :=
    sliceFields_length _ _ _ hle
  have hci : ci ≠ [] := structIter_ne_nil env t op np nq n 0 [[]] i ci hreach (by simp)
  refine ⟨_, hstep, ?_, ?_, ?_⟩
  · intro h
    unfold memConds
    rw [hlen]
    simp [h, hlen]
  · intro h
    unfold memConds
    rw [hlen]
    have : ¬ next - i ≤ 2 := by omega
    simp only [this, if_false]
  · obtain ⟨out, hS, hmem⟩ := Struct_mem_of_state env t op np nq n i next ci _ hi hreach hstep
    refine ⟨out, hS, ?_⟩
    intro o ho
    apply hmem
    have hd : ci = ci.dropLast ++ [ci.getLast hci] := (List.dropLast_append_getLast hci).symm
    rw [hd, foldl_andCond_single]
    simp only [List.flatten_append, List.flatten_cons, List.flatten_nil, List.append_nil,
      List.mem_append]
    exact Or.inr (Or.inr ho)

theorem mem_foldl_andCond (ops : List Node) (c : List (List Node)) (hc : c ≠ []) (o : Node)
    (ho : o ∈ ops) : o ∈ (ops.foldl andCond c).flatten := by
  have hd : c = c.dropLast ++ [c.getLast hc] := (List.dropLast_append_getLast hc).symm
  rw [hd, foldl_andCond_single]
  simp only [List.flatten_append, List.flatten_cons, List.flatten_nil, List.append_nil,
    List.mem_append]
  exact Or.inr (Or.inr ho)

theorem foldl_andCond_last (ops : List Node) (c : List (List Node)) (hc : c ≠ []) :
    ops.foldl andCond c = c.dropLast ++ [c.getLast hc ++ ops] := by
  have hd : c = c.dropLast ++ [c.getLast hc] := (List.dropLast_append_getLast hc).symm
  conv_lhs => rw [hd]
  exact foldl_andCond_single _ _ _

/-- C3, the claim as stated fails.  For `{I any}` the result of `Struct` is
the one plain comparison `p.I == q.I`; it does not hold the pair of
conditions that `EqInterface` builds for the two operands. -/
theorem Struct_interface_no_pair :
    Struct (exampleEnv 1) anyOnlyT .OEQ lhs rhs =
        some [.BinaryExpr .OEQ (.SelectorExpr .OXDOT lhs ⟨"I"⟩)
          (.SelectorExpr .OXDOT rhs ⟨"I"⟩)] ∧
      ¬ ∃ eqtab eqdata pre post,
        EqInterface (exampleEnv 1) (.SelectorExpr .OXDOT lhs ⟨"I"⟩)
          (.SelectorExpr .OXDOT rhs ⟨"I"⟩) = .ok (eqtab, eqdata) ∧
        Struct (exampleEnv 1) anyOnlyT .OEQ lhs rhs =
          some (pre ++ [eqtab, eqdata] ++ post) := by
  have h : Struct (exampleEnv 1) anyOnlyT .OEQ lhs rhs =
      some [.BinaryExpr .OEQ (.SelectorExpr .OXDOT lhs ⟨"I"⟩)
        (.SelectorExpr .OXDOT rhs ⟨"I"⟩)] := rfl
  refine ⟨h, ?_⟩
  rintro ⟨eqtab, eqdata, pre, post, _, hS⟩
  rw [h] at hS
  have hl := congrArg List.length (Option.some.inj hS)
  simp at hl
  omega

/-- C3, as amended.  The walk of `Struct` reaches every field that is not
blank and is not memory-comparable, and adds for it (within fresh groups
when its comparison can panic): for a string, the length check followed by
the bytes check; for any other type, an interface type included, the one
plain comparison of the field.  `Struct` does not use `EqInterface`.  What
is added is in the result. -/
theorem Struct_nonmem_field_conds (env : Env) (t : GoType) (op : Op) (np nq : Node)
    (k : Nat) (f : Field) (hf : t.Field k = some f) (hb : f.Sym.IsBlank = false)
    (hm : IsRegularMemory env f.Typ = false) :
    ∃ n ck,
      structIter env t op np nq n 0 [[]] = some (k, ck) ∧
      structStep env t op np nq k ck =
        some (k + 1,
          if EqCanPanic f.Typ then
            (nonMemConds op np nq f).foldl andCond (ck ++ [[]]) ++ [[]]
          else (nonMemConds op np nq f).foldl andCond ck) ∧
      (f.Typ.IsString = true →
        nonMemConds op np nq f =
          [if op ≠ .OEQ then
              (EqString (.SelectorExpr .OXDOT np f.Sym)
                (.SelectorExpr .OXDOT nq f.Sym)).1.SetOp op
            else (EqString (.SelectorExpr .OXDOT np f.Sym) (.SelectorExpr .OXDOT nq f.Sym)).1,
           if op ≠ .OEQ then
              .UnaryExpr .ONOT
                (EqString (.SelectorExpr .OXDOT np f.Sym) (.SelectorExpr .OXDOT nq f.Sym)).2
            else
              (EqString (.SelectorExpr .OXDOT np f.Sym) (.SelectorExpr .OXDOT nq f.Sym)).2]) ∧
      (f.Typ.IsString = false →
        nonMemConds op np nq f =
          [.BinaryExpr op (.SelectorExpr .OXDOT np f.Sym) (.SelectorExpr .OXDOT nq f.Sym)]) ∧
      (f.Typ.IsInterface = true →
        nonMemConds op np nq f =
          [.BinaryExpr op (.SelectorExpr .OXDOT np f.Sym) (.SelectorExpr .OXDOT nq f.Sym)]) ∧
      ∃ out, Struct env t op np nq = some out ∧ ∀ o ∈ nonMemConds op np nq f, o ∈ out := by
  obtain ⟨n, ck, hreach, hck⟩ :=
    structIter_reaches env t op np nq k f hf (Or.inr hm) k 0 [[]] (by omega) (by omega) (by simp)
  have hk := field_lt_of_some t k f hf
  have hstep := structStep_nonmem env t op np nq k ck f hf hb hm
  refine ⟨n, ck, hreach, hstep, nonMemConds_string op np nq f, nonMemConds_other op np nq f,
    fun h => nonMemConds_other op np nq f (eqCanPanic_of_isInterface _ h).2, ?_⟩
  obtain ⟨out, hS, hmem⟩ := Struct_mem_of_state env t op np nq n k (k + 1) ck _ hk hreach hstep
  refine ⟨out, hS, ?_⟩
  intro o ho
  apply hmem
  by_cases hp : EqCanPanic f.Typ = true
  · simp only [hp, if_true, List.flatten_append, List.mem_append]
    exact Or.inl (mem_foldl_andCond _ _ (by simp) o ho)
  · simp only [hp]
    exact mem_foldl_andCond _ _ hck o ho

/-- C4, the failure.  For `{S string; X int32}` in not-equal mode the
result of `Struct` has the negated `memequal` call of `S` before the plain
comparison of `X`, in the one group; in equal mode the call is last. -/
theorem Struct_ne_call_before_plain :
    Struct (exampleEnv 1) stringIntT .ONE lhs rhs =
        some [(EqString (.SelectorExpr .OXDOT lhs ⟨"S"⟩)
                (.SelectorExpr .OXDOT rhs ⟨"S"⟩)).1.SetOp .ONE,
              .UnaryExpr .ONOT (EqString (.SelectorExpr .OXDOT lhs ⟨"S"⟩)
                (.SelectorExpr .OXDOT rhs ⟨"S"⟩)).2,
              eqfield lhs rhs .ONE ⟨"X"⟩] ∧
      structLoop (exampleEnv 1) stringIntT .ONE lhs rhs 2 0 [[]] =
        some [[(EqString (.SelectorExpr .OXDOT lhs ⟨"S"⟩)
                (.SelectorExpr .OXDOT rhs ⟨"S"⟩)).1.SetOp .ONE,
              .UnaryExpr .ONOT (EqString (.SelectorExpr .OXDOT lhs ⟨"S"⟩)
                (.SelectorExpr .OXDOT rhs ⟨"S"⟩)).2,
              eqfield lhs rhs .ONE ⟨"X"⟩]] ∧
      Struct (exampleEnv 1) stringIntT .OEQ lhs rhs =
        some [(EqString (.SelectorExpr .OXDOT lhs ⟨"S"⟩)
                (.SelectorExpr .OXDOT rhs ⟨"S"⟩)).1,
              eqfield lhs rhs .OEQ ⟨"X"⟩,
              (EqString (.SelectorExpr .OXDOT lhs ⟨"S"⟩)
                (.SelectorExpr .OXDOT rhs ⟨"S"⟩)).2] :=
  ⟨rfl, rfl, rfl⟩

/-- C5.  Stability of the reordering: the walk of `Struct` ends with groups
`conds`, and the result is the append, in the order of the groups, of one
list per group that is a permutation of the group and has its calls, and its
conditions that are not calls, in the order the group has them. -/
theorem Struct_groups_stable (env : Env) (t : GoType) (op : Op) (np nq : Node) :
    ∃ conds out,
      structLoop env t op np nq t.FieldSlice.length 0 [[]] = some conds ∧
      Struct env t op np nq = some out.flatten ∧
      List.Forall₂ (fun c s => s.Perm c ∧ s.filter isCall = c.filter isCall ∧
        s.filter (fun n => !isCall n) = c.filter (fun n => !isCall n)) conds out := by
  obtain ⟨conds, hc⟩ := structLoop_total env t op np nq t.FieldSlice.length 0 [[]]
    (by unfold GoType.NumFields; omega)
  refine ⟨conds, conds.map (SliceStable callLess), hc, ?_, ?_⟩
  · unfold Struct
    rw [hc]
    rfl
  · rw [List.forall₂_map_right_iff]
    apply List.forall₂_same.mpr
    intro c _
    exact ⟨SliceStable_perm c, SliceStable_filter_call c, SliceStable_filter_noncall c⟩

/-- C6.  Variable-length pairing: for a string field that is not blank (and
that the type system does not compare as memory), in equal and in not-equal
mode, the length check of the field is before its bytes check (the
`memequal` call, negated in not-equal mode) in the result of `Struct`. -/
theorem Struct_string_len_before_bytes (env : Env) (t : GoType) (op : Op) (np nq : Node)
    (k : Nat) (f : Field) (hop : op = .OEQ ∨ op = .ONE)
    (hf : t.Field k = some f) (hb : f.Sym.IsBlank = false)
    (hm : IsRegularMemory env f.Typ = false) (hs : f.Typ.IsString = true) :
    ∃ pre mid post, Struct env t op np nq =
      some (pre ++
        [if op ≠ .OEQ then
            (EqString (.SelectorExpr .OXDOT np f.Sym)
              (.SelectorExpr .OXDOT nq f.Sym)).1.SetOp op
          else (EqString (.SelectorExpr .OXDOT np f.Sym) (.SelectorExpr .OXDOT nq f.Sym)).1] ++
        mid ++
        [if op ≠ .OEQ then
            .UnaryExpr .ONOT
              (EqString (.SelectorExpr .OXDOT np f.Sym) (.SelectorExpr .OXDOT nq f.Sym)).2
          else (EqString (.SelectorExpr .OXDOT np f.Sym) (.SelectorExpr .OXDOT nq f.Sym)).2] ++
        post) := by
  obtain ⟨n, ck, hreach, hck⟩ :=
    structIter_reaches env t op np nq k f hf (Or.inr hm) k 0 [[]] (by omega) (by omega) (by simp)
  have hk := field_lt_of_some t k f hf
  have hstep := structStep_nonmem env t op np nq k ck f hf hb hm
  have hp : EqCanPanic f.Typ = false := by
    cases hpp : EqCanPanic f.Typ with
    | false => rfl
    | true => rw [isString_of_eqCanPanic _ hpp] at hs; cases hs
  rw [nonMemConds_string op np nq f hs] at hstep
  simp only [hp, Bool.false_eq_true, if_false] at hstep
  rw [foldl_andCond_last _ ck hck] at hstep
  obtain ⟨after, _, hS⟩ := Struct_from_state env t op np nq n k (k + 1) ck _ _ hk hreach hstep
  obtain ⟨x, rest, hflat⟩ := flatConds_graft ck.dropLast
    (ck.getLast hck ++
      [if op ≠ .OEQ then
          (EqString (.SelectorExpr .OXDOT np f.Sym)
            (.SelectorExpr .OXDOT nq f.Sym)).1.SetOp op
        else (EqString (.SelectorExpr .OXDOT np f.Sym) (.SelectorExpr .OXDOT nq f.Sym)).1,
       if op ≠ .OEQ then
          .UnaryExpr .ONOT
            (EqString (.SelectorExpr .OXDOT np f.Sym) (.SelectorExpr .OXDOT nq f.Sym)).2
        else (EqString (.SelectorExpr .OXDOT np f.Sym) (.SelectorExpr .OXDOT nq f.Sym)).2])
    after
  have he : isCall (if op ≠ .OEQ then
          (EqString (.SelectorExpr .OXDOT np f.Sym)
            (.SelectorExpr .OXDOT nq f.Sym)).1.SetOp op
        else (EqString (.SelectorExpr .OXDOT np f.Sym) (.SelectorExpr .OXDOT nq f.Sym)).1)
      = false := by
    rcases hop with h | h <;> subst h <;> rfl
  obtain ⟨X, Y, Z, hsort⟩ := SliceStable_pair (ck.getLast hck) x _
    (if op ≠ .OEQ then
        .UnaryExpr .ONOT
          (EqString (.SelectorExpr .OXDOT np f.Sym) (.SelectorExpr .OXDOT nq f.Sym)).2
      else (EqString (.SelectorExpr .OXDOT np f.Sym) (.SelectorExpr .OXDOT nq f.Sym)).2) he
  refine ⟨flatConds ck.dropLast ++ X, Y, Z ++ rest, ?_⟩
  rw [hS, hflat, hsort]
  simp

/-! ## Instances of the claims -/

/-- An instance of C1: field `B`, an interface, of `{A int64; B any; C int64}`. -/
theorem Struct_isolates_panicking_field_witness :
    ∃ n before after,
      structIter (exampleEnv 1) guardedT .OEQ lhs rhs n 0 [[]] = some (1, before) ∧
      structLoop (exampleEnv 1) guardedT .OEQ lhs rhs guardedT.FieldSlice.length (1 + 1) [[]] =
        some after ∧
      Struct (exampleEnv 1) guardedT .OEQ lhs rhs =
        some (flatConds before ++
          [.BinaryExpr .OEQ (.SelectorExpr .OXDOT lhs (Field.mk ⟨"B"⟩ anyT 8).Sym)
            (.SelectorExpr .OXDOT rhs (Field.mk ⟨"B"⟩ anyT 8).Sym)] ++
          flatConds after) :=
  Struct_isolates_panicking_field (exampleEnv 1) guardedT .OEQ lhs rhs 1
    (.mk ⟨"B"⟩ anyT 8) rfl (by decide) (by decide) (by decide)

/-- An instance of C2: the run of the four fields of
`{a uint8; b uint8; c uint16; d int32}` on a target without alignment
constraint. -/
theorem Struct_run_threshold_witness :
    ∃ ops, structStep (exampleEnv 1) smallFieldsT .OEQ lhs rhs 0 [[]] =
        some (4, ops.foldl andCond [[]]) ∧
      (4 - 0 ≤ 2 →
        ops = (sliceFields smallFieldsT.FieldSlice 0 4).map
          (fun g => eqfield lhs rhs .OEQ g.Sym) ∧
        ops.length = 4 - 0) ∧
      (2 < 4 - 0 →
        ops = [if Op.OEQ ≠ .OEQ then
                .UnaryExpr .ONOT (eqmem lhs rhs (Field.mk ⟨"a"⟩ uint8T 0).Sym 8)
               else eqmem lhs rhs (Field.mk ⟨"a"⟩ uint8T 0).Sym 8]) ∧
      ∃ out, Struct (exampleEnv 1) smallFieldsT .OEQ lhs rhs = some out ∧ ∀ o ∈ ops, o ∈ out :=
  Struct_run_threshold (exampleEnv 1) smallFieldsT .OEQ lhs rhs 0 0 [[]]
    (.mk ⟨"a"⟩ uint8T 0) 8 4 rfl rfl (by decide) (by decide) (by decide)

/-- An instance of C3 as amended: the interface field of `{I any}`. -/
theorem Struct_nonmem_field_conds_witness :
    ∃ n ck,
      structIter (exampleEnv 1) anyOnlyT .OEQ lhs rhs n 0 [[]] = some (0, ck) ∧
      structStep (exampleEnv 1) anyOnlyT .OEQ lhs rhs 0 ck =
        some (0 + 1,
          if EqCanPanic (Field.mk ⟨"I"⟩ anyT 0).Typ then
            (nonMemConds .OEQ lhs rhs (.mk ⟨"I"⟩ anyT 0)).foldl andCond (ck ++ [[]]) ++ [[]]
          else (nonMemConds .OEQ lhs rhs (.mk ⟨"I"⟩ anyT 0)).foldl andCond ck) ∧
      ((Field.mk ⟨"I"⟩ anyT 0).Typ.IsString = true →
        nonMemConds .OEQ lhs rhs (.mk ⟨"I"⟩ anyT 0) =
          [if Op.OEQ ≠ .OEQ then
              (EqString (.SelectorExpr .OXDOT lhs ⟨"I"⟩)
                (.SelectorExpr .OXDOT rhs ⟨"I"⟩)).1.SetOp .OEQ
            else (EqString (.SelectorExpr .OXDOT lhs ⟨"I"⟩) (.SelectorExpr .OXDOT rhs ⟨"I"⟩)).1,
           if Op.OEQ ≠ .OEQ then
              .UnaryExpr .ONOT
                (EqString (.SelectorExpr .OXDOT lhs ⟨"I"⟩) (.SelectorExpr .OXDOT rhs ⟨"I"⟩)).2
            else
              (EqString (.SelectorExpr .OXDOT lhs ⟨"I"⟩) (.SelectorExpr .OXDOT rhs ⟨"I"⟩)).2]) ∧
      ((Field.mk ⟨"I"⟩ anyT 0).Typ.IsString = false →
        nonMemConds .OEQ lhs rhs (.mk ⟨"I"⟩ anyT 0) =
          [.BinaryExpr .OEQ (.SelectorExpr .OXDOT lhs ⟨"I"⟩) (.SelectorExpr .OXDOT rhs ⟨"I"⟩)]) ∧
      ((Field.mk ⟨"I"⟩ anyT 0).Typ.IsInterface = true →
        nonMemConds .OEQ lhs rhs (.mk ⟨"I"⟩ anyT 0) =
          [.BinaryExpr .OEQ (.SelectorExpr .OXDOT lhs ⟨"I"⟩) (.SelectorExpr .OXDOT rhs ⟨"I"⟩)]) ∧
      ∃ out, Struct (exampleEnv 1) anyOnlyT .OEQ lhs rhs = some out ∧
        ∀ o ∈ nonMemConds .OEQ lhs rhs (.mk ⟨"I"⟩ anyT 0), o ∈ out :=
  Struct_nonmem_field_conds (exampleEnv 1) anyOnlyT .OEQ lhs rhs 0 (.mk ⟨"I"⟩ anyT 0) rfl
    (by decide) (by decide)

/-- An instance of C6: the string field of `{S string; X int32}` in
not-equal mode. -/
theorem Struct_string_len_before_bytes_witness :
    ∃ pre mid post, Struct (exampleEnv 1) stringIntT .ONE lhs rhs =
      some (pre ++
        [(EqString (.SelectorExpr .OXDOT lhs ⟨"S"⟩) (.SelectorExpr .OXDOT rhs ⟨"S"⟩)).1.SetOp
          .ONE] ++
        mid ++
        [.UnaryExpr .ONOT
          (EqString (.SelectorExpr .OXDOT lhs ⟨"S"⟩) (.SelectorExpr .OXDOT rhs ⟨"S"⟩)).2] ++
        post) :=
  Struct_string_len_before_bytes (exampleEnv 1) stringIntT .ONE lhs rhs 0
    (.mk ⟨"S"⟩ stringT 0) (Or.inr rfl) rfl (by decide) (by decide) (by decide)

/-! ## The panic analysis and the builders: the claims -/

theorem EqCanPanicFields_iff (fs : List Field) :
    EqCanPanicFields fs = true ↔
      ∃ f ∈ fs, f.Sym.IsBlank = false ∧ EqCanPanic f.Typ = true := by
  induction fs with
  | nil => simp [EqCanPanicFields]
  | cons f rest ih =>
    cases f with
    | mk sym ty off =>
      rw [EqCanPanicFields]
      by_cases h : (!sym.IsBlank && EqCanPanic ty) = true
      · rw [if_pos h]
        simp only [Bool.and_eq_true, Bool.not_eq_true'] at h
        simp only [true_iff]
        exact ⟨.mk sym ty off, List.mem_cons_self _ _, h.1, h.2⟩
      · rw [if_neg h, ih]
        constructor
        · rintro ⟨g, hg, hb, hp⟩
          exact ⟨g, List.mem_cons_of_mem _ hg, hb, hp⟩
        · rintro ⟨g, hg, hb, hp⟩
          rcases List.mem_cons.mp hg with rfl | hg'
          · exfalso
            apply h
            simp only [Field.Sym, Field.Typ] at hb hp
            simp [hb, hp]
          · exact ⟨g, hg', hb, hp⟩

/-- C11.  `EqCanPanic` is a total function, and it is true exactly of an
interface type, of an array type whose element type can panic, and of a
struct type with a field that is not blank and whose type can panic; so it
is false of every type of another kind, and of a struct type whose fields of
a type that can panic are all blank. -/
theorem EqCanPanic_iff (t : GoType) :
    (EqCanPanic t = true ↔
      t.Kind = .TINTER ∨
      (t.Kind = .TARRAY ∧ ∃ elem, t.Elem = some elem ∧ EqCanPanic elem = true) ∨
      (t.Kind = .TSTRUCT ∧
        ∃ f ∈ t.FieldSlice, f.Sym.IsBlank = false ∧ EqCanPanic f.Typ = true)) ∧
    ((t.Kind ≠ .TINTER ∧ t.Kind ≠ .TARRAY ∧ t.Kind ≠ .TSTRUCT) ∨
      (t.Kind = .TSTRUCT ∧
        ∀ f ∈ t.FieldSlice, EqCanPanic f.Typ = true → f.Sym.IsBlank = true) →
      EqCanPanic t = false) := by
  have hiff : EqCanPanic t = true ↔
      t.Kind = .TINTER ∨
      (t.Kind = .TARRAY ∧ ∃ elem, t.Elem = some elem ∧ EqCanPanic elem = true) ∨
      (t.Kind = .TSTRUCT ∧
        ∃ f ∈ t.FieldSlice, f.Sym.IsBlank = false ∧ EqCanPanic f.Typ = true) := by
    cases t with
    | leaf k w a =>
      cases k <;> simp [EqCanPanic, GoType.Kind, Leaf.toKind]
    | inter ms w a => simp [EqCanPanic, GoType.Kind]
    | array e b w a => simp [EqCanPanic, GoType.Kind, GoType.Elem]
    | struct fs w a =>
      rw [EqCanPanic, EqCanPanicFields_iff]
      simp [GoType.Kind, GoType.FieldSlice]
  refine ⟨hiff, ?_⟩
  intro h
  cases hp : EqCanPanic t with
  | false => rfl
  | true =>
    exfalso
    rcases hiff.mp hp with h1 | ⟨h1, _⟩ | ⟨h1, f, hf, hb, hpf⟩
    · rcases h with ⟨h2, _, _⟩ | ⟨h2, _⟩
      · exact h2 h1
      · rw [h1] at h2; cases h2
    · rcases h with ⟨_, h2, _⟩ | ⟨h2, _⟩
      · exact h2 h1
      · rw [h1] at h2; cases h2
    · rcases h with ⟨_, _, h2⟩ | ⟨_, h2⟩
      · exact h2 h1
      · rw [h2 f hf hpf] at hb; cases hb

/-- C12.  Width specialization: for the sizes 1, 2, 4, 8 and 16 the call
that `eqmem` builds is to the routine `memequal8`, `memequal16`,
`memequal32`, `memequal64`, `memequal128` (the width in bits), with the two
addresses as its only arguments; for any other size it is to `memequal`,
with the two addresses and the size. -/
theorem eqmem_width (p q : Node) (field : Sym) (size : Int) :
    (eqmemfunc 1 = (LookupRuntime "memequal8", false) ∧
     eqmemfunc 2 = (LookupRuntime "memequal16", false) ∧
     eqmemfunc 4 = (LookupRuntime "memequal32", false) ∧
     eqmemfunc 8 = (LookupRuntime "memequal64", false) ∧
     eqmemfunc 16 = (LookupRuntime "memequal128", false)) ∧
    ((size = 1 ∨ size = 2 ∨ size = 4 ∨ size = 8 ∨ size = 16) →
      eqmem p q field size =
        .CallExpr .OCALL (LookupRuntime ("memequal" ++ toString (size.toNat * 8)))
          [.AddrExpr .OADDR (.SelectorExpr .OXDOT p field),
           .AddrExpr .OADDR (.SelectorExpr .OXDOT q field)]) ∧
    (¬ (size = 1 ∨ size = 2 ∨ size = 4 ∨ size = 8 ∨ size = 16) →
      eqmemfunc size = (LookupRuntime "memequal", true) ∧
      eqmem p q field size =
        .CallExpr .OCALL (LookupRuntime "memequal")
          [.AddrExpr .OADDR (.SelectorExpr .OXDOT p field),
           .AddrExpr .OADDR (.SelectorExpr .OXDOT q field),
           .BasicLit size]) := by
  refine ⟨⟨rfl, rfl, rfl, rfl, rfl⟩, ?_, ?_⟩
  · intro h
    unfold eqmem eqmemfunc
    simp [h]
  · intro h
    unfold eqmem eqmemfunc
    simp [h]

/-- An instance of C12: the sizes 8, 24, 0 and 3. -/
theorem eqmem_width_witness :
    eqmem lhs rhs ⟨"X"⟩ 8 =
        .CallExpr .OCALL (.Name "memequal64")
          [.AddrExpr .OADDR (.SelectorExpr .OXDOT lhs ⟨"X"⟩),
           .AddrExpr .OADDR (.SelectorExpr .OXDOT rhs ⟨"X"⟩)] ∧
      eqmem lhs rhs ⟨"X"⟩ 24 =
        .CallExpr .OCALL (.Name "memequal")
          [.AddrExpr .OADDR (.SelectorExpr .OXDOT lhs ⟨"X"⟩),
           .AddrExpr .OADDR (.SelectorExpr .OXDOT rhs ⟨"X"⟩), .BasicLit 24] ∧
      (eqmemfunc 0).2 = true ∧ (eqmemfunc 3).2 = true :=
  ⟨((eqmem_width lhs rhs ⟨"X"⟩ 8).2.1 (by decide)).trans rfl,
   ((eqmem_width lhs rhs ⟨"X"⟩ 24).2.2 (by decide)).2,
   congrArg Prod.snd ((eqmem_width lhs rhs ⟨"X"⟩ 0).2.2 (by decide)).1,
   congrArg Prod.snd ((eqmem_width lhs rhs ⟨"X"⟩ 3).2.2 (by decide)).1⟩

/-- C15.  `EqInterface` fails exactly when the types of its two operands
are not identical; otherwise it returns the comparison `s.tab == t.tab` and
the call of `efaceeq`, for operands of the empty interface type, or of
`ifaceeq`, for another type, with the arguments `s.tab`, `s.data`,
`t.data`. -/
theorem EqInterface_spec (env : Env) (s t : Node) :
    ((∃ e, EqInterface env s t = .error e) ↔
      env.Identical (env.TypeOf s) (env.TypeOf t) = false) ∧
    (env.Identical (env.TypeOf s) (env.TypeOf t) = true →
      EqInterface env s t =
        .ok (.BinaryExpr .OEQ (.UnaryExpr .OITAB s) (.UnaryExpr .OITAB t),
             .CallExpr .OCALLFUNC
               (LookupRuntime (if (env.TypeOf s).IsEmptyInterface then "efaceeq"
                 else "ifaceeq"))
               [.UnaryExpr .OITAB s, .UnaryExpr .OIDATA s, .UnaryExpr .OIDATA t])) := by
  unfold EqInterface
  cases h : env.Identical (env.TypeOf s) (env.TypeOf t) with
  | false => simp
  | true =>
    simp only [Bool.not_true, Bool.false_eq_true, if_false]
    refine ⟨?_, ?_⟩
    · simp
    · intro _
      by_cases he : (env.TypeOf s).IsEmptyInterface = true <;> simp [he, typecheckCall]

/-- An instance of C11: `{_ int64; _ any}`, whose interface field is blank,
and `{I any}`. -/
theorem EqCanPanic_iff_witness :
    EqCanPanic allBlankT = false ∧ EqCanPanic anyOnlyT = true :=
  ⟨(EqCanPanic_iff allBlankT).2 (Or.inr ⟨rfl, by decide⟩),
   (EqCanPanic_iff anyOnlyT).1.mpr
     (Or.inr (Or.inr ⟨rfl, .mk ⟨"I"⟩ anyT 0, List.mem_cons_self _ _, by decide, by decide⟩))⟩

/-- An instance of C15: two operands of type `any`. -/
theorem EqInterface_spec_witness :
    EqInterface (exampleEnv 1) lhs rhs =
      .ok (.BinaryExpr .OEQ (.UnaryExpr .OITAB lhs) (.UnaryExpr .OITAB rhs),
           .CallExpr .OCALLFUNC (.Name "efaceeq")
             [.UnaryExpr .OITAB lhs, .UnaryExpr .OIDATA lhs, .UnaryExpr .OIDATA rhs]) :=
  ((EqInterface_spec (exampleEnv 1) lhs rhs).2 (by decide)).trans rfl

/-! ## The synthesizer: the whole walk -/

theorem structLoop_all_blank (env : Env) (t : GoType) (op : Op) (np nq : Node)
    (h : ∀ f ∈ t.FieldSlice, f.Sym.IsBlank = true) :
    ∀ fuel i (c : List (List Node)), t.NumFields - i ≤ fuel →
      structLoop env t op np nq fuel i c = some c := by
  intro fuel
  induction fuel with
  | zero =>
    intro i c hi
    have : ¬ i < t.FieldSlice.length := by
      unfold GoType.NumFields at hi
      omega
    simp [structLoop, this]
  | succ fuel ih =>
    intro i c hi
    rw [structLoop]
    by_cases hlt : i < t.FieldSlice.length
    · obtain ⟨f, hf⟩ := field_some_of_lt t i hlt
      have hmem : f ∈ t.FieldSlice := by
        unfold GoType.Field at hf
        exact List.getElem?_mem hf
      simp only [hlt, if_true, structStep_blank env t op np nq i c f hf (h f hmem)]
      exact ih (i + 1) c (by omega)
    · simp [hlt]

/-- C13.  Emptiness: for a struct type without fields, or whose fields are
all blank, and for any operation, `Struct` returns the empty list of
conditions. -/
theorem Struct_all_blank (env : Env) (t : GoType) (op : Op) (np nq : Node)
    (h : ∀ f ∈ t.FieldSlice, f.Sym.IsBlank = true) :
    Struct env t op np nq = some [] := by
  unfold Struct
  rw [structLoop_all_blank env t op np nq h _ 0 [[]] (by unfold GoType.NumFields; omega)]
  rfl

/-- An instance of C13: the struct `{_ int64; _ any}` in not-equal mode; the
struct without fields is another. -/
theorem Struct_all_blank_witness :
    Struct (exampleEnv 1) allBlankT .ONE lhs rhs = some [] ∧
      Struct (exampleEnv 1) (.struct [] 0 1) .OEQ lhs rhs = some [] :=
  ⟨Struct_all_blank (exampleEnv 1) allBlankT .ONE lhs rhs (by decide),
   Struct_all_blank (exampleEnv 1) (.struct [] 0 1) .OEQ lhs rhs (by decide)⟩

/-- C14, the claim as stated fails.  For
`{X int64; Y int64; S string; I any; Z int32}` in equal mode the result of
`Struct` does not begin with the `memequal` call of 16 bytes on `X`, and it
does not hold the data check that `EqInterface` builds for the field `I`. -/
theorem Struct_example_not_merged :
    (¬ ∃ rest, Struct (exampleEnv 1) fiveFieldsT .OEQ lhs rhs =
        some (eqmem lhs rhs ⟨"X"⟩ 16 :: rest)) ∧
    (¬ ∃ eqtab eqdata out,
        EqInterface (exampleEnv 1) (.SelectorExpr .OXDOT lhs ⟨"I"⟩)
          (.SelectorExpr .OXDOT rhs ⟨"I"⟩) = .ok (eqtab, eqdata) ∧
        Struct (exampleEnv 1) fiveFieldsT .OEQ lhs rhs = some out ∧ eqdata ∈ out) := by
  have h : Struct (exampleEnv 1) fiveFieldsT .OEQ lhs rhs =
      some [eqfield lhs rhs .OEQ ⟨"X"⟩, eqfield lhs rhs .OEQ ⟨"Y"⟩,
        (EqString (.SelectorExpr .OXDOT lhs ⟨"S"⟩) (.SelectorExpr .OXDOT rhs ⟨"S"⟩)).1,
        (EqString (.SelectorExpr .OXDOT lhs ⟨"S"⟩) (.SelectorExpr .OXDOT rhs ⟨"S"⟩)).2,
        .BinaryExpr .OEQ (.SelectorExpr .OXDOT lhs ⟨"I"⟩) (.SelectorExpr .OXDOT rhs ⟨"I"⟩),
        eqfield lhs rhs .OEQ ⟨"Z"⟩] := rfl
  constructor
  · rintro ⟨rest, hr⟩
    rw [h] at hr
    have := (List.cons.inj (Option.some.inj hr)).1
    simp [eqfield, eqmem, eqmemfunc] at this
  · rintro ⟨eqtab, eqdata, out, hE, hS, hm⟩
    rw [h] at hS
    have hout := Option.some.inj hS
    subst hout
    have hd : eqdata = .CallExpr .OCALLFUNC (LookupRuntime "efaceeq")
        [.UnaryExpr .OITAB (.SelectorExpr .OXDOT lhs ⟨"I"⟩),
         .UnaryExpr .OIDATA (.SelectorExpr .OXDOT lhs ⟨"I"⟩),
         .UnaryExpr .OIDATA (.SelectorExpr .OXDOT rhs ⟨"I"⟩)] := by
      have h2 : EqInterface (exampleEnv 1) (.SelectorExpr .OXDOT lhs ⟨"I"⟩)
          (.SelectorExpr .OXDOT rhs ⟨"I"⟩) = .ok
          (.BinaryExpr .OEQ (.UnaryExpr .OITAB (.SelectorExpr .OXDOT lhs ⟨"I"⟩))
            (.UnaryExpr .OITAB (.SelectorExpr .OXDOT rhs ⟨"I"⟩)),
          .CallExpr .OCALLFUNC (LookupRuntime "efaceeq")
            [.UnaryExpr .OITAB (.SelectorExpr .OXDOT lhs ⟨"I"⟩),
             .UnaryExpr .OIDATA (.SelectorExpr .OXDOT lhs ⟨"I"⟩),
             .UnaryExpr .OIDATA (.SelectorExpr .OXDOT rhs ⟨"I"⟩)]) := rfl
      rw [h2] at hE
      have := Except.ok.inj hE
      exact (congrArg Prod.snd this).symm
    subst hd
    simp [eqfield, EqString, typecheckCall, typecheckConv, LookupRuntime] at hm

/-- C14, as amended.  For `{X int64; Y int64; S string; I any; Z int32}` in
equal mode `Struct` returns, in order: the plain comparison of `X`, the
plain comparison of `Y` (a run of two fields is not merged), the length
check of `S`, the bytes check of `S` (the one call, last of its group), the
one plain comparison of `I`, the plain comparison of `Z`; the groups of the
walk are those of `X`, `Y` and `S`, then of `I` alone, then of `Z`.  So it
is on a target without alignment constraint and on one of minimum
alignment 8. -/
theorem Struct_example :
    Struct (exampleEnv 1) fiveFieldsT .OEQ lhs rhs =
      some [eqfield lhs rhs .OEQ ⟨"X"⟩, eqfield lhs rhs .OEQ ⟨"Y"⟩,
        (EqString (.SelectorExpr .OXDOT lhs ⟨"S"⟩) (.SelectorExpr .OXDOT rhs ⟨"S"⟩)).1,
        (EqString (.SelectorExpr .OXDOT lhs ⟨"S"⟩) (.SelectorExpr .OXDOT rhs ⟨"S"⟩)).2,
        .BinaryExpr .OEQ (.SelectorExpr .OXDOT lhs ⟨"I"⟩) (.SelectorExpr .OXDOT rhs ⟨"I"⟩),
        eqfield lhs rhs .OEQ ⟨"Z"⟩] ∧
    structLoop (exampleEnv 1) fiveFieldsT .OEQ lhs rhs 5 0 [[]] =
      some [[eqfield lhs rhs .OEQ ⟨"X"⟩, eqfield lhs rhs .OEQ ⟨"Y"⟩,
        (EqString (.SelectorExpr .OXDOT lhs ⟨"S"⟩) (.SelectorExpr .OXDOT rhs ⟨"S"⟩)).1,
        (EqString (.SelectorExpr .OXDOT lhs ⟨"S"⟩) (.SelectorExpr .OXDOT rhs ⟨"S"⟩)).2],
        [.BinaryExpr .OEQ (.SelectorExpr .OXDOT lhs ⟨"I"⟩) (.SelectorExpr .OXDOT rhs ⟨"I"⟩)],
        [eqfield lhs rhs .OEQ ⟨"Z"⟩]] ∧
    Struct (exampleEnv 8) fiveFieldsT .OEQ lhs rhs =
      Struct (exampleEnv 1) fiveFieldsT .OEQ lhs rhs ∧
    Memrun (exampleEnv 1) fiveFieldsT 0 = some (16, 2) :=
  ⟨rfl, rfl, rfl, rfl⟩

/-- An iteration of the loop of `Struct` at a field that is not blank goes
to the next index, for a non-memory field, or to the end of the run of
`Memrun`, for a memory field, over fields that are not blank. -/
theorem structStep_range (env : Env) (t : GoType) (op : Op) (np nq : Node) (i i' : Nat)
    (c c' : List (List Node)) (f : Field) (hf : t.Field i = some f)
    (hstep : structStep env t op np nq i c = some (i', c')) :
    (f.Sym.IsBlank = true → i' = i + 1) ∧
    (f.Sym.IsBlank = false → IsRegularMemory env f.Typ = false → i' = i + 1) ∧
    (f.Sym.IsBlank = false → IsRegularMemory env f.Typ = true →
      ∃ size, Memrun env t i = some (size, i')) ∧
    (∀ j g, i < j → j < i' → t.Field j = some g → g.Sym.IsBlank = false) := by
  have hi := field_lt_of_some t i f hf
  by_cases hb : f.Sym.IsBlank = true
  · rw [structStep_blank env t op np nq i c f hf hb] at hstep
    simp only [Option.some.injEq, Prod.mk.injEq] at hstep
    refine ⟨fun _ => hstep.1.symm, ?_, ?_, ?_⟩
    · intro h; rw [hb] at h; cases h
    · intro h; rw [hb] at h; cases h
    · intro j g h1 h2; omega
  · have hb' : f.Sym.IsBlank = false := by simpa using hb
    by_cases hm : IsRegularMemory env f.Typ = true
    · obtain ⟨next, l, fs, hrun, _, _, _, _, hall, _⟩ := Memrun_spec env t i hi
      rw [structStep_mem env t op np nq i c f _ next hf hb' hm hrun] at hstep
      simp only [Option.some.injEq, Prod.mk.injEq] at hstep
      obtain ⟨rfl, _⟩ := hstep
      refine ⟨fun h => absurd h hb, ?_, fun _ _ => ⟨_, hrun⟩, ?_⟩
      · intro _ h; rw [hm] at h; cases h
      · intro j g h1 h2 hg
        obtain ⟨_, g', _, hg', _, hgb, _⟩ := hall j h1 h2
        rw [hg] at hg'
        cases hg'
        exact hgb
    · have hm' : IsRegularMemory env f.Typ = false := by simpa using hm
      rw [structStep_nonmem env t op np nq i c f hf hb' hm'] at hstep
      simp only [Option.some.injEq, Prod.mk.injEq] at hstep
      refine ⟨fun h => absurd h hb, fun _ _ => hstep.1.symm, ?_, ?_⟩
      · intro _ h; rw [hm'] at h; cases h
      · intro j g h1 h2; omega

/-- The ranges of fields that the walk of `Struct` compares from the index
`i` on: they are within the struct from `i` on, in order and disjoint, each
is the field or the run of an iteration, and they hold the fields that are
not blank and no other. -/
theorem structCover_spec (env : Env) (t : GoType) (op : Op) (np nq : Node) :
    ∀ fuel i (c : List (List Node)), t.NumFields - i ≤ fuel →
      ∃ ranges, structCover env t op np nq fuel i c = some ranges ∧
        (∀ r ∈ ranges, i ≤ r.1 ∧ r.1 < r.2 ∧ r.2 ≤ t.NumFields ∧
          ∃ f, t.Field r.1 = some f ∧ f.Sym.IsBlank = false ∧
            (IsRegularMemory env f.Typ = false → r.2 = r.1 + 1) ∧
            (IsRegularMemory env f.Typ = true →
              ∃ size, Memrun env t r.1 = some (size, r.2))) ∧
        ranges.Pairwise (fun a b => a.2 ≤ b.1) ∧
        (∀ j g, i ≤ j → t.Field j = some g →
          (g.Sym.IsBlank = false ↔ ∃ r ∈ ranges, r.1 ≤ j ∧ j < r.2)) := by
  intro fuel
  induction fuel with
  | zero =>
    intro i c hi
    have hn : ¬ i < t.FieldSlice.length := by
      unfold GoType.NumFields at hi
      omega
    refine ⟨[], by simp [structCover, hn], by simp, List.Pairwise.nil, ?_⟩
    intro j g hj hg
    have := field_lt_of_some t j g hg
    unfold GoType.NumFields at this
    omega
  | succ fuel ih =>
    intro i c hi
    rw [structCover]
    by_cases hlt : i < t.FieldSlice.length
    · obtain ⟨f, hf⟩ := field_some_of_lt t i hlt
      obtain ⟨i', c', hstep, hii', hle, _⟩ := structStep_progress env t op np nq i c hlt
      obtain ⟨h1, h2, h3, h4⟩ := structStep_range env t op np nq i i' c c' f hf hstep
      obtain ⟨rest, hrest, hr1, hr2, hr3⟩ := ih i' c' (by omega)
      have hf' : t.FieldSlice[i]? = some f := hf
      simp only [hlt, if_true, hstep, hf', hrest]
      by_cases hb : f.Sym.IsBlank = true
      · have hi' := h1 hb
        subst hi'
        refine ⟨rest, by simp [hb], ?_, hr2, ?_⟩
        · intro r hr
          obtain ⟨a, b⟩ := hr1 r hr
          exact ⟨by omega, b⟩
        · intro j g hj hg
          by_cases hji : j = i
          · subst hji
            rw [hf] at hg
            cases hg
            constructor
            · intro h; rw [hb] at h; cases h
            · rintro ⟨r, hr, hr', _⟩
              have := (hr1 r hr).1
              omega
          · exact hr3 j g (by omega) hg
      · have hb' : f.Sym.IsBlank = false := by simpa using hb
        refine ⟨(i, i') :: rest, by simp [hb'], ?_, ?_, ?_⟩
        · intro r hr
          rcases List.mem_cons.mp hr with rfl | hr
          · exact ⟨le_refl _, hii', hle, f, hf, hb', h2 hb', h3 hb'⟩
          · obtain ⟨a, b⟩ := hr1 r hr
            exact ⟨by omega, b⟩
        · refine List.Pairwise.cons ?_ hr2
          intro r hr
          exact (hr1 r hr).1
        · intro j g hj hg
          by_cases hji : j < i'
          · constructor
            · intro _
              exact ⟨(i, i'), List.mem_cons_self _ _, hj, hji⟩
            · intro _
              by_cases hje : j = i
              · subst hje
                rw [hf] at hg
                cases hg
                exact hb'
              · exact h4 j g (by omega) hji hg
          · rw [hr3 j g (by omega) hg]
            constructor
            · rintro ⟨r, hr, h5, h6⟩
              exact ⟨r, List.mem_cons_of_mem _ hr, h5, h6⟩
            · rintro ⟨r, hr, h5, h6⟩
              rcases List.mem_cons.mp hr with rfl | hr
              · simp only at h6
                omega
              · exact ⟨r, hr, h5, h6⟩
    · refine ⟨[], by simp [hlt], by simp, List.Pairwise.nil, ?_⟩
      intro j g hj hg
      have := field_lt_of_some t j g hg
      unfold GoType.NumFields at this
      omega

theorem flatten_foldl_andCond (ops : List Node) (c : List (List Node)) (hc : c ≠ []) :
    (ops.foldl andCond c).flatten = c.flatten ++ ops := by
  rw [foldl_andCond_last ops c hc]
  have hd : c = c.dropLast ++ [c.getLast hc] := (List.dropLast_append_getLast hc).symm
  conv_rhs => rw [hd]
  simp

/-- An iteration of the loop of `Struct` adds conditions behind those that
the groups hold: none, those of a non-memory field, or those of a run. -/
theorem structStep_flatten (env : Env) (t : GoType) (op : Op) (np nq : Node) (i i' : Nat)
    (c c' : List (List Node)) (hc : c ≠ [])
    (hstep : structStep env t op np nq i c = some (i', c')) :
    ∃ ops, c'.flatten = c.flatten ++ ops ∧
      (ops = [] ∨ (∃ f, ops = nonMemConds op np nq f) ∨
        (∃ f s size, ops = memConds op np nq f s size)) := by
  by_cases hi : i < t.NumFields
  · obtain ⟨f, hf⟩ := field_some_of_lt t i hi
    by_cases hb : f.Sym.IsBlank = true
    · rw [structStep_blank env t op np nq i c f hf hb] at hstep
      simp only [Option.some.injEq, Prod.mk.injEq] at hstep
      exact ⟨[], by rw [← hstep.2]; simp, Or.inl rfl⟩
    · have hb' : f.Sym.IsBlank = false := by simpa using hb
      by_cases hm : IsRegularMemory env f.Typ = true
      · obtain ⟨next, l, fs, hrun, _⟩ := Memrun_spec env t i hi
        rw [structStep_mem env t op np nq i c f _ next hf hb' hm hrun] at hstep
        simp only [Option.some.injEq, Prod.mk.injEq] at hstep
        refine ⟨memConds op np nq f (sliceFields t.FieldSlice i next) (l.End - fs.Offset), ?_,
          Or.inr (Or.inr ⟨f, _, _, rfl⟩)⟩
        rw [← hstep.2, flatten_foldl_andCond _ _ hc]
      · have hm' : IsRegularMemory env f.Typ = false := by simpa using hm
        rw [structStep_nonmem env t op np nq i c f hf hb' hm'] at hstep
        simp only [Option.some.injEq, Prod.mk.injEq] at hstep
        refine ⟨nonMemConds op np nq f, ?_, Or.inr (Or.inl ⟨f, rfl⟩)⟩
        rw [← hstep.2]
        by_cases hp : EqCanPanic f.Typ = true
        · simp only [hp, if_true, List.flatten_append]
          rw [flatten_foldl_andCond _ _ (by simp)]
          simp
        · simp only [hp, Bool.false_eq_true, if_false]
          rw [flatten_foldl_andCond _ _ hc]
  · have hn : t.FieldSlice[i]? = none := by
      unfold GoType.NumFields at hi
      exact List.getElem?_eq_none (by omega)
    unfold structStep at hstep
    simp [hn] at hstep

theorem nonMemConds_not_call (op : Op) (np nq : Node) (f : Field) (hne : op ≠ .OEQ)
    (hc : op ≠ .OCALL) (hcf : op ≠ .OCALLFUNC) :
    ∀ n ∈ nonMemConds op np nq f, isCall n = false := by
  intro n hn
  unfold nonMemConds at hn
  by_cases hs : f.Typ.IsString = true
  · simp only [hs, if_true, hne, ne_eq, not_false_eq_true, EqString, Node.SetOp,
      List.mem_cons, List.mem_singleton, List.not_mem_nil, or_false] at hn
    rcases hn with rfl | rfl
    · simp [isCall, Node.Op, hc, hcf]
    · simp [isCall, Node.Op]
  · simp only [hs, List.mem_singleton] at hn
    simp only [Bool.false_eq_true, if_false, List.mem_singleton] at hn
    subst hn
    simp [isCall, Node.Op, hc, hcf]

theorem memConds_not_call (op : Op) (np nq : Node) (f : Field) (s : List Field) (size : Int)
    (hne : op ≠ .OEQ) (hc : op ≠ .OCALL) (hcf : op ≠ .OCALLFUNC) :
    ∀ n ∈ memConds op np nq f s size, isCall n = false := by
  intro n hn
  unfold memConds at hn
  by_cases hl : s.length ≤ 2
  · simp only [hl, if_true, List.mem_map] at hn
    obtain ⟨g, _, rfl⟩ := hn
    simp [eqfield, isCall, Node.Op, hc, hcf]
  · simp only [hl, if_false, hne, ne_eq, not_false_eq_true, if_true, List.mem_singleton] at hn
    subst hn
    simp [isCall, Node.Op]

/-- In not-equal mode no condition in the groups of the walk of `Struct` is
a call. -/
theorem structLoop_not_call (env : Env) (t : GoType) (op : Op) (np nq : Node)
    (hne : op ≠ .OEQ) (hc : op ≠ .OCALL) (hcf : op ≠ .OCALLFUNC) :
    ∀ fuel i (c r : List (List Node)), c ≠ [] → (∀ n ∈ c.flatten, isCall n = false) →
      structLoop env t op np nq fuel i c = some r → ∀ n ∈ r.flatten, isCall n = false := by
  intro fuel
  induction fuel with
  | zero =>
    intro i c r _ hall h
    rw [structLoop] at h
    by_cases hi : i < t.FieldSlice.length
    · simp [hi] at h
    · simp only [hi, if_false, Option.some.injEq] at h
      rw [← h]
      exact hall
  | succ fuel ih =>
    intro i c r hcne hall h
    rw [structLoop] at h
    by_cases hi : i < t.FieldSlice.length
    · simp only [hi, if_true] at h
      obtain ⟨i', c', hstep, _, _, hne'⟩ := structStep_progress env t op np nq i c hi
      rw [hstep] at h
      obtain ⟨ops, hflat, hops⟩ := structStep_flatten env t op np nq i i' c c' hcne hstep
      refine ih i' c' r (hne' hcne) ?_ h
      intro n hn
      rw [hflat, List.mem_append] at hn
      rcases hn with hn | hn
      · exact hall n hn
      · rcases hops with rfl | ⟨f, rfl⟩ | ⟨f, s, size, rfl⟩
        · cases hn
        · exact nonMemConds_not_call op np nq f hne hc hcf n hn
        · exact memConds_not_call op np nq f s size hne hc hcf n hn
    · simp only [hi, if_false, Option.some.injEq] at h
      rw [← h]
      exact hall

theorem SliceStable_of_not_call (c : List Node) (h : ∀ n ∈ c, isCall n = false) :
    SliceStable callLess c = c := by
  rw [SliceStable_callLess]
  have h1 : c.filter (fun n => !isCall n) = c := by
    apply List.filter_eq_self.mpr
    intro n hn
    simp [h n hn]
  have h2 : c.filter isCall = [] := by
    apply List.filter_eq_nil_iff.mpr
    intro n hn
    simp [h n hn]
  rw [h1, h2, List.append_nil]

theorem flatConds_of_not_call (conds : List (List Node))
    (h : ∀ n ∈ conds.flatten, isCall n = false) : flatConds conds = conds.flatten := by
  unfold flatConds
  congr 1
  conv_rhs => rw [← List.map_id conds]
  apply List.map_congr_left
  intro c hc
  apply SliceStable_of_not_call
  intro n hn
  exact h n (List.mem_flatten.mpr ⟨c, hc, hn⟩)

/-- C20.  In not-equal mode (an operation other than `OEQ`, and that is not
the operation of a call) no condition that the walk of `Struct` adds is a
call, so the sort changes nothing: the result is the conditions of the
groups in the order the walk added them.  That order can differ from the
order of the negated conditions of the equal mode: it does for
`{S string; X int32}`. -/
theorem Struct_ne_emission_order (env : Env) (t : GoType) (op : Op) (np nq : Node)
    (hne : op ≠ .OEQ) (hc : op ≠ .OCALL) (hcf : op ≠ .OCALLFUNC) :
    (∃ conds, structLoop env t op np nq t.FieldSlice.length 0 [[]] = some conds ∧
      (∀ n ∈ conds.flatten, isCall n = false) ∧
      Struct env t op np nq = some conds.flatten) ∧
    Struct (exampleEnv 1) stringIntT .ONE lhs rhs ≠
      (Struct (exampleEnv 1) stringIntT .OEQ lhs rhs).map (List.map negateCond) := by
  constructor
  · obtain ⟨conds, hl⟩ := structLoop_total env t op np nq t.FieldSlice.length 0 [[]]
      (by unfold GoType.NumFields; omega)
    have hall := structLoop_not_call env t op np nq hne hc hcf _ 0 [[]] conds (by simp)
      (by simp) hl
    refine ⟨conds, hl, hall, ?_⟩
    unfold Struct
    rw [hl]
    simp only
    rw [flatConds_of_not_call conds hall]
  · intro h
    have h1 : Struct (exampleEnv 1) stringIntT .ONE lhs rhs =
        some [(EqString (.SelectorExpr .OXDOT lhs ⟨"S"⟩)
                (.SelectorExpr .OXDOT rhs ⟨"S"⟩)).1.SetOp .ONE,
              .UnaryExpr .ONOT (EqString (.SelectorExpr .OXDOT lhs ⟨"S"⟩)
                (.SelectorExpr .OXDOT rhs ⟨"S"⟩)).2,
              eqfield lhs rhs .ONE ⟨"X"⟩] := rfl
    have h2 : (Struct (exampleEnv 1) stringIntT .OEQ lhs rhs).map (List.map negateCond) =
        some [(EqString (.SelectorExpr .OXDOT lhs ⟨"S"⟩)
                (.SelectorExpr .OXDOT rhs ⟨"S"⟩)).1.SetOp .ONE,
              eqfield lhs rhs .ONE ⟨"X"⟩,
              .UnaryExpr .ONOT (EqString (.SelectorExpr .OXDOT lhs ⟨"S"⟩)
                (.SelectorExpr .OXDOT rhs ⟨"S"⟩)).2] := rfl
    rw [h1, h2] at h
    have h3 := (List.cons.inj (List.cons.inj (Option.some.inj h)).2).1
    simp [eqfield] at h3

/-- An instance of C20: `{S string; X int32}` with the operation `ONE`. -/
theorem Struct_ne_emission_order_witness :
    (∃ conds, structLoop (exampleEnv 1) stringIntT .ONE lhs rhs
        stringIntT.FieldSlice.length 0 [[]] = some conds ∧
      (∀ n ∈ conds.flatten, isCall n = false) ∧
      Struct (exampleEnv 1) stringIntT .ONE lhs rhs = some conds.flatten) ∧
    Struct (exampleEnv 1) stringIntT .ONE lhs rhs ≠
      (Struct (exampleEnv 1) stringIntT .OEQ lhs rhs).map (List.map negateCond) :=
  Struct_ne_emission_order (exampleEnv 1) stringIntT .ONE lhs rhs (by decide) (by decide)
    (by decide)

/-! ## The synthesizer: coverage of the fields -/

theorem flatConds_perm (conds : List (List Node)) : (flatConds conds).Perm conds.flatten := by
  unfold flatConds
  induction conds with
  | nil => simp
  | cons c rest ih =>
    simp only [List.map_cons, List.flatten_cons]
    exact (SliceStable_perm c).append ih

/-- An iteration of the loop of `Struct` adds, behind the conditions that
the groups hold, nothing at a blank field and else the conditions of the
range of fields it goes over. -/
theorem structStep_conds (env : Env) (t : GoType) (op : Op) (np nq : Node) (i i' : Nat)
    (c c' : List (List Node)) (f : Field) (hc : c ≠ []) (hf : t.Field i = some f)
    (hstep : structStep env t op np nq i c = some (i', c')) :
    c'.flatten =
      c.flatten ++ (if f.Sym.IsBlank then [] else rangeConds env t op np nq (i, i')) := by
  have hi := field_lt_of_some t i f hf
  have hf' : t.FieldSlice[i]? = some f := hf
  by_cases hb : f.Sym.IsBlank = true
  · rw [structStep_blank env t op np nq i c f hf hb] at hstep
    simp only [Option.some.injEq, Prod.mk.injEq] at hstep
    rw [← hstep.2]
    simp [hb]
  · have hb' : f.Sym.IsBlank = false := by simpa using hb
    by_cases hm : IsRegularMemory env f.Typ = true
    · obtain ⟨next, l, fs, hrun, _⟩ := Memrun_spec env t i hi
      rw [structStep_mem env t op np nq i c f _ next hf hb' hm hrun] at hstep
      simp only [Option.some.injEq, Prod.mk.injEq] at hstep
      obtain ⟨rfl, rfl⟩ := hstep
      rw [flatten_foldl_andCond _ _ hc]
      simp [hb', rangeConds, hf', hm, hrun]
    · have hm' : IsRegularMemory env f.Typ = false := by simpa using hm
      rw [structStep_nonmem env t op np nq i c f hf hb' hm'] at hstep
      simp only [Option.some.injEq, Prod.mk.injEq] at hstep
      obtain ⟨rfl, rfl⟩ := hstep
      have hr : rangeConds env t op np nq (i, i + 1) = nonMemConds op np nq f := by
        simp [rangeConds, hf', hm']
      by_cases hp : EqCanPanic f.Typ = true
      · simp only [hp, if_true, List.flatten_append]
        rw [flatten_foldl_andCond _ _ (by simp)]
        simp [hb', hr]
      · simp only [hp, Bool.false_eq_true, if_false]
        rw [flatten_foldl_andCond _ _ hc]
        simp [hb', hr]

/-- The conditions in the groups at the end of the walk of `Struct` are
those the groups held, followed by the conditions of the ranges of fields
that the walk compares, range after range. -/
theorem structLoop_conds (env : Env) (t : GoType) (op : Op) (np nq : Node) :
    ∀ fuel i (c : List (List Node)), c ≠ [] → t.NumFields - i ≤ fuel →
      ∃ conds ranges, structLoop env t op np nq fuel i c = some conds ∧
        structCover env t op np nq fuel i c = some ranges ∧
        conds.flatten = c.flatten ++ (ranges.map (rangeConds env t op np nq)).flatten := by
  intro fuel
  induction fuel with
  | zero =>
    intro i c _ hi
    have hn : ¬ i < t.FieldSlice.length := by
      unfold GoType.NumFields at hi
      omega
    exact ⟨c, [], by simp [structLoop, hn], by simp [structCover, hn], by simp⟩
  | succ fuel ih =>
    intro i c hc hi
    rw [structLoop, structCover]
    by_cases hlt : i < t.FieldSlice.length
    · obtain ⟨f, hf⟩ := field_some_of_lt t i hlt
      obtain ⟨i', c', hstep, hii', _, hne⟩ := structStep_progress env t op np nq i c hlt
      obtain ⟨conds, rest, h1, h2, h3⟩ := ih i' c' (hne hc) (by omega)
      have hf' : t.FieldSlice[i]? = some f := hf
      have hfl := structStep_conds env t op np nq i i' c c' f hc hf hstep
      simp only [hlt, if_true, hstep, hf', h1, h2]
      by_cases hb : f.Sym.IsBlank = true
      · refine ⟨conds, rest, rfl, by simp [hb], ?_⟩
        rw [h3, hfl]
        simp [hb]
      · have hb' : f.Sym.IsBlank = false := by simpa using hb
        refine ⟨conds, (i, i') :: rest, rfl, by simp [hb'], ?_⟩
        rw [h3, hfl]
        simp [hb']
    · exact ⟨c, [], by simp [hlt], by simp [hlt], by simp⟩

/-- C19.  Coverage: the walk of `Struct` ends (each iteration goes to a
later index) and `Struct` returns; the conditions it returns are, up to the
order within the groups, the conditions of the ranges of fields that its
iterations compare, each range once and in the order of the walk, and
nothing else (for a range, the conditions of its non-memory field, or those
of the run of `Memrun` that it is); the ranges are in order and disjoint,
and a field of the struct is in one of them exactly when it is not blank; so
it is in exactly one. -/
theorem Struct_coverage (env : Env) (t : GoType) (op : Op) (np nq : Node) :
    ∃ out conds ranges,
      Struct env t op np nq = some out ∧
      structLoop env t op np nq t.FieldSlice.length 0 [[]] = some conds ∧
      structCover env t op np nq t.FieldSlice.length 0 [[]] = some ranges ∧
      out.Perm conds.flatten ∧
      conds.flatten = (ranges.map (rangeConds env t op np nq)).flatten ∧
      (∀ i (c : List (List Node)), i < t.NumFields →
        ∃ i' c', structStep env t op np nq i c = some (i', c') ∧ i < i') ∧
      (∀ r ∈ ranges, r.1 < r.2 ∧ r.2 ≤ t.NumFields ∧
        ∃ f, t.Field r.1 = some f ∧ f.Sym.IsBlank = false ∧
          (IsRegularMemory env f.Typ = false →
            r.2 = r.1 + 1 ∧ rangeConds env t op np nq r = nonMemConds op np nq f) ∧
          (IsRegularMemory env f.Typ = true →
            ∃ size, Memrun env t r.1 = some (size, r.2) ∧
              rangeConds env t op np nq r =
                memConds op np nq f (sliceFields t.FieldSlice r.1 r.2) size)) ∧
      ranges.Pairwise (fun a b => a.2 ≤ b.1) ∧
      (∀ j g, t.Field j = some g →
        (g.Sym.IsBlank = false ↔ ∃ r ∈ ranges, r.1 ≤ j ∧ j < r.2)) ∧
      (∀ j, ∀ r ∈ ranges, ∀ r' ∈ ranges,
        r.1 ≤ j → j < r.2 → r'.1 ≤ j → j < r'.2 → r = r') := by
  obtain ⟨conds, ranges, hc, hr, hflat⟩ :=
    structLoop_conds env t op np nq t.FieldSlice.length 0 [[]] (by simp)
      (by unfold GoType.NumFields; omega)
  obtain ⟨ranges1, hr1, h1, h2, h3⟩ :=
    structCover_spec env t op np nq t.FieldSlice.length 0 [[]]
      (by unfold GoType.NumFields; omega)
  rw [hr] at hr1
  have heq : ranges = ranges1 := Option.some.inj hr1
  subst heq
  refine ⟨flatConds conds, conds, ranges, ?_, hc, hr, flatConds_perm conds, ?_, ?_, ?_, h2,
    ?_, ?_⟩
  · unfold Struct
    rw [hc]
  · simpa using hflat
  · intro i c hi
    obtain ⟨i', c', hs, hlt, _⟩ := structStep_progress env t op np nq i c hi
    exact ⟨i', c', hs, hlt⟩
  · intro r hr'
    obtain ⟨_, a1, a2, f, hf, hb, hn, hm⟩ := h1 r hr'
    have hf' : t.FieldSlice[r.1]? = some f := hf
    refine ⟨a1, a2, f, hf, hb, ?_, ?_⟩
    · intro h
      exact ⟨hn h, by simp [rangeConds, hf', h]⟩
    · intro h
      obtain ⟨size, hsz⟩ := hm h
      exact ⟨size, hsz, by simp [rangeConds, hf', h, hsz]⟩
  · intro j g hg
    exact h3 j g (Nat.zero_le _) hg
  · intro j r hr' r' hr'' a b a' b'
    by_contra hne
    have hsym : Symmetric (fun a b : Nat × Nat => a.2 ≤ b.1 ∨ b.2 ≤ a.1) := by
      intro x y h
      exact h.symm
    have hp : ranges.Pairwise (fun a b : Nat × Nat => a.2 ≤ b.1 ∨ b.2 ≤ a.1) :=
      h2.imp (fun h => Or.inl h)
    rcases hp.forall hsym hr' hr'' hne with h | h <;> omega

/-- An instance of C19: the ranges of `{X int64; Y int64; S string; I any; Z int32}`
are the run of `X` and `Y`, then `S`, `I` and `Z` one by one. -/
theorem Struct_coverage_witness :
    structCover (exampleEnv 1) fiveFieldsT .OEQ lhs rhs 5 0 [[]] =
        some [(0, 2), (2, 3), (3, 4), (4, 5)] ∧
      ∃ out conds ranges,
        Struct (exampleEnv 1) fiveFieldsT .OEQ lhs rhs = some out ∧
        structLoop (exampleEnv 1) fiveFieldsT .OEQ lhs rhs 5 0 [[]] = some conds ∧
        structCover (exampleEnv 1) fiveFieldsT .OEQ lhs rhs 5 0 [[]] = some ranges ∧
        out.Perm conds.flatten ∧
        conds.flatten = (ranges.map (rangeConds (exampleEnv 1) fiveFieldsT .OEQ lhs rhs)).flatten :=
  ⟨by decide,
   match Struct_coverage (exampleEnv 1) fiveFieldsT .OEQ lhs rhs with
   | ⟨out, conds, ranges, h1, h2, h3, h4, h5, _⟩ => ⟨out, conds, ranges, h1, h2, h3, h4, h5⟩⟩

end Compare

namespace Rand

/-! ## Batched reads: properties -/

theorem ceil_div_step (len m : Nat) (hm : 1 ≤ m) (hl : 0 < len) :
    (len + m - 1) / m = (len - m + m - 1) / m + 1 := by
  by_cases h : m ≤ len
  · have : len + m - 1 = (len - m + m - 1) + m := by omega
    rw [this, Nat.add_div_right _ (by omega)]
  · have h1 : (len + m - 1) / m = 1 := by
      apply Nat.div_eq_of_lt_le <;> omega
    have h2 : (len - m + m - 1) / m = 0 := by
      apply Nat.div_eq_of_lt
      omega
    rw [h1, h2]

/-- One iteration of the loop with a positive `readMax` on a slice that is
not empty: `f` is called on the first `readMax` bytes, or on all of them if
they are fewer, and the loop goes on with the rest. -/
theorem batchedLoop_succ {σ ε : Type} (f : σ → List UInt8 → σ × List UInt8 × Option ε)
    (readMax : Int) (hmax : 1 ≤ readMax) (fuel : Nat) (s : σ) (off : Nat) (out : List UInt8)
    (hout : out ≠ []) :
    batchedLoop f readMax (fuel + 1) s off out =
      match f s (out.take readMax.toNat) with
      | (s', res, some e) =>
        some ⟨s', res ++ out.drop readMax.toNat,
          [⟨off, out.take readMax.toNat, res, some e⟩], some e⟩
      | (s', res, none) =>
        match batchedLoop f readMax fuel s' (off + min out.length readMax.toNat)
            (out.drop readMax.toNat) with
        | none => none
        | some r =>
          some ⟨r.state, res ++ r.out,
            ⟨off, out.take readMax.toNat, res, none⟩ :: r.calls, r.err⟩ := by
  have hlen : 0 < out.length := List.length_pos.mpr hout
  obtain ⟨m, rfl⟩ := Int.eq_ofNat_of_zero_le (show (0 : Int) ≤ readMax by omega)
  have hm : 1 ≤ m := by exact_mod_cast hmax
  simp only [Int.toNat_ofNat]
  rw [batchedLoop]
  simp only [gt_iff_lt, hlen, if_true]
  by_cases hgt : (m : Int) < (out.length : Int)
  · have hlt : m < out.length := by exact_mod_cast hgt
    have hmin : min out.length m = m := by omega
    have hneg : ¬ ((m : Int) < 0) := by omega
    simp only [hgt, if_true, hneg, if_false, Int.toNat_ofNat, hmin]
  · have hle : out.length ≤ m := by
      have : ¬ m < out.length := by exact_mod_cast hgt
      omega
    have hmin : min out.length m = out.length := by omega
    have hneg : ¬ ((out.length : Int) < 0) := by omega
    have ht : out.take out.length = out.take m := by
      rw [List.take_of_length_le (le_refl _), List.take_of_length_le hle]
    have hd : out.drop out.length = out.drop m := by
      rw [List.drop_of_length_le (le_refl _), List.drop_of_length_le hle]
    simp only [hgt, if_false, hneg, Int.toNat_ofNat, hmin, ht, hd]

/-- The loop of the function that `batched` returns, with a positive
`readMax` and fuel for the bytes of the slice: it ends; the calls of `f` are
on the successive subslices of `readMax` bytes (the last one may be
shorter); only the last call may have returned an error, which is then the
error returned; the bytes past the last subslice are as they were. -/
theorem batchedLoop_spec {σ ε : Type} (f : σ → List UInt8 → σ × List UInt8 × Option ε)
    (readMax : Int) (hmax : 1 ≤ readMax) :
    ∀ fuel (s : σ) (off : Nat) (out : List UInt8), out.length < fuel →
      ∃ r, batchedLoop f readMax fuel s off out = some r ∧
        (∀ i c, r.calls[i]? = some c →
          c.off = off + i * readMax.toNat ∧
          c.arg = (out.drop (i * readMax.toNat)).take readMax.toNat ∧
          1 ≤ c.arg.length ∧ c.arg.length ≤ readMax.toNat ∧
          (∃ st, (f st c.arg).2 = (c.res, c.err)) ∧
          (i + 1 < r.calls.length → c.arg.length = readMax.toNat ∧ c.err = none) ∧
          (i + 1 = r.calls.length → c.err = r.err)) ∧
        (r.calls = [] ↔ out = []) ∧
        (r.calls = [] → r.err = none) ∧
        r.out = (r.calls.map Call.res).flatten ++ out.drop (r.calls.length * readMax.toNat) ∧
        (r.err = none →
          (r.calls.map Call.arg).flatten = out ∧
          r.calls.length = (out.length + readMax.toNat - 1) / readMax.toNat) ∧
        ((∀ st b, (f st b).2.1.length = b.length) →
          ((r.calls.map Call.res).flatten).length =
            min (r.calls.length * readMax.toNat) out.length) := by
  have hm : 1 ≤ readMax.toNat := by omega
  intro fuel
  induction fuel with
  | zero => intro s off out h; omega
  | succ fuel ih =>
    intro s off out hlen
    by_cases hout : out = []
    · subst hout
      refine ⟨⟨s, [], [], none⟩, by simp [batchedLoop], ?_, by simp, by simp, by simp, ?_,
        by simp⟩
      · intro i c h
        simp at h
      · intro _
        refine ⟨by simp, ?_⟩
        simp only [List.length_nil, Nat.zero_add]
        exact (Nat.div_eq_of_lt (by omega)).symm
    · have hpos : 0 < out.length := List.length_pos.mpr hout
      rw [batchedLoop_succ f readMax hmax fuel s off out hout]
      have htl : (out.take readMax.toNat).length = min readMax.toNat out.length :=
        List.length_take _ _
      rcases hfs : f s (out.take readMax.toNat) with ⟨s', res, _ | e⟩
      · obtain ⟨r, hr, ha, hb, hb', hc, hd, hg⟩ :=
          ih s' (off + min out.length readMax.toNat) (out.drop readMax.toNat)
            (by rw [List.length_drop]; omega)
        simp only [hr]
        have hne : r.calls ≠ [] → readMax.toNat < out.length := by
          intro h
          have h2 : out.drop readMax.toNat ≠ [] := fun h3 => h (hb.mpr h3)
          have := List.length_pos.mpr h2
          rw [List.length_drop] at this
          omega
        refine ⟨_, rfl, ?_, by simp [hout], by simp, ?_, ?_, ?_⟩
        rotate_left 3
        · intro hlenf
          have h1 := hg hlenf
          have h2 : res.length = min readMax.toNat out.length := by
            have := hlenf s (out.take readMax.toNat)
            rw [hfs, htl] at this
            exact this
          simp only [List.map_cons, List.flatten_cons, List.length_append, List.length_cons]
          rw [h1, h2, List.length_drop, Nat.succ_mul]
          by_cases hle : out.length ≤ readMax.toNat
          · have : r.calls = [] := hb.mpr (List.drop_of_length_le hle)
            rw [this]
            simp only [List.length_nil, Nat.zero_mul]
            omega
          · omega
        · intro i c hi
          cases i with
          | zero =>
            simp only [List.getElem?_cons_zero, Option.some.injEq] at hi
            subst hi
            refine ⟨by simp, by simp, by simp only [htl]; omega, by simp only [htl]; omega,
              ⟨s, by rw [hfs]⟩, ?_, ?_⟩
            · intro h
              simp only [List.length_cons] at h
              have := hne (List.ne_nil_of_length_pos (by omega))
              exact ⟨by simp only [htl]; omega, rfl⟩
            · intro h
              simp only [List.length_cons] at h
              have : r.calls = [] := List.eq_nil_of_length_eq_zero (by omega)
              exact (hb' this).symm
          | succ j =>
            simp only [List.getElem?_cons_succ] at hi
            obtain ⟨a1, a2, a3, a4, a5, a6, a7⟩ := ha j c hi
            have hj : j < r.calls.length := by
              by_contra hcon
              rw [List.getElem?_eq_none (by omega)] at hi
              cases hi
            have := hne (List.ne_nil_of_length_pos (by omega))
            refine ⟨?_, ?_, a3, a4, a5, ?_, ?_⟩
            · rw [a1, Nat.succ_mul]
              have : min out.length readMax.toNat = readMax.toNat := by omega
              rw [this]
              omega
            · rw [a2, List.drop_drop, Nat.succ_mul]
              congr 2
              omega
            · intro h
              simp only [List.length_cons] at h
              exact a6 (by omega)
            · intro h
              simp only [List.length_cons] at h
              exact a7 (by omega)
        · simp only [List.map_cons, List.flatten_cons, List.length_cons]
          rw [hc, List.drop_drop, Nat.succ_mul, List.append_assoc]
          congr 3
          omega
        · intro he
          obtain ⟨d1, d2⟩ := hd he
          constructor
          · simp only [List.map_cons, List.flatten_cons]
            rw [d1, List.take_append_drop]
          · simp only [List.length_cons]
            rw [d2, List.length_drop, ceil_div_step out.length readMax.toNat hm hpos]
      · refine ⟨_, rfl, ?_, by simp [hout], by simp, by simp, by simp, ?_⟩
        · intro i c hi
          cases i with
          | zero =>
            simp only [List.getElem?_cons_zero, Option.some.injEq] at hi
            subst hi
            exact ⟨by simp, by simp, by simp only [htl]; omega, by simp only [htl]; omega,
              ⟨s, by rw [hfs]⟩, by simp, by simp⟩
          | succ j => simp at hi
        · intro hlenf
          have h2 : res.length = min readMax.toNat out.length := by
            have := hlenf s (out.take readMax.toNat)
            rw [hfs, htl] at this
            exact this
          simp only [List.map_cons, List.map_nil, List.flatten_cons, List.flatten_nil,
            List.append_nil, List.length_cons, List.length_nil, h2]
          omega

/-- C16.  Chunking: with a positive `readMax` and a function `f` that never
returns an error, the function that `batched` returns ends and returns
`nil`; it calls `f` as many times as the length of the slice divided by
`readMax`, rounded up (not at all for an empty slice), the call of index `i`
on the subslice of the slice at the offset `i * readMax`, of `readMax`
bytes or of the bytes left if they are fewer, so of at least 1 and at most
`readMax` bytes, and of `readMax` bytes if it is not the last; the subslices
in order make up the slice. -/
theorem batched_chunks {σ ε : Type} (f : σ → List UInt8 → σ × List UInt8 × Option ε)
    (readMax : Int) (s : σ) (out : List UInt8) (hmax : 1 ≤ readMax)
    (hf : ∀ st b, (f st b).2.2 = none) :
    ∃ r, batched f readMax s out = some r ∧ r.err = none ∧
      r.calls.length = (out.length + readMax.toNat - 1) / readMax.toNat ∧
      (out = [] → r.calls = []) ∧
      (∀ i c, r.calls[i]? = some c →
        c.off = i * readMax.toNat ∧
        c.arg = (out.drop (i * readMax.toNat)).take readMax.toNat ∧
        1 ≤ c.arg.length ∧ c.arg.length ≤ readMax.toNat ∧
        (i + 1 < r.calls.length → c.arg.length = readMax.toNat)) ∧
      (r.calls.map Call.arg).flatten = out := by
  obtain ⟨r, hr, ha, hb, hb', _, hd, _⟩ :=
    batchedLoop_spec f readMax hmax (out.length + 1) s 0 out (by omega)
  have herr : r.err = none := by
    by_cases hc : r.calls = []
    · exact hb' hc
    · have hpos : 0 < r.calls.length := List.length_pos.mpr hc
      have hlast : r.calls[r.calls.length - 1]? = some (r.calls[r.calls.length - 1]) :=
        List.getElem?_eq_getElem (by omega)
      obtain ⟨_, _, _, _, ⟨st, hst⟩, _, h7⟩ := ha _ _ hlast
      rw [← h7 (by omega)]
      have := hf st (r.calls[r.calls.length - 1]).arg
      rw [hst] at this
      exact this
  obtain ⟨d1, d2⟩ := hd herr
  refine ⟨r, hr, herr, d2, hb.mpr, ?_, d1⟩
  intro i c hi
  obtain ⟨a1, a2, a3, a4, _, a6, _⟩ := ha i c hi
  exact ⟨by simpa using a1, a2, a3, a4, fun h => (a6 h).1⟩

theorem stateBefore_succ {σ ε : Type} (f : σ → List UInt8 → σ × List UInt8 × Option ε)
    (m : Nat) (s : σ) (out : List UInt8) :
    ∀ k, stateBefore f m s out (k + 1) =
      stateBefore f m (f s (out.take m)).1 (out.drop m) k := by
  intro k
  induction k with
  | zero => simp [stateBefore]
  | succ k ih =>
    rw [stateBefore, ih]
    conv_rhs => rw [stateBefore]
    rw [List.drop_drop, Nat.succ_mul]
    congr 4
    omega

theorem chunk_succ (m : Nat) (out : List UInt8) (k : Nat) :
    ((out.drop m).drop (k * m)).take m = (out.drop ((k + 1) * m)).take m := by
  rw [List.drop_drop, Nat.succ_mul]
  congr 2
  omega

/-- The loop of the function that `batched` returns, with a positive
`readMax` and fuel for the bytes of the slice, calls `f` from the state the
call before left: each logged call is the call of `f` in that state on its
subslice; the first call that returns an error ends the run with that
error; and a run that returns `nil` has called `f` on every subslice. -/
theorem batchedLoop_trace {σ ε : Type} (f : σ → List UInt8 → σ × List UInt8 × Option ε)
    (readMax : Int) (hmax : 1 ≤ readMax) :
    ∀ fuel (s : σ) (off : Nat) (out : List UInt8), out.length < fuel →
      ∃ r, batchedLoop f readMax fuel s off out = some r ∧
        (∀ i c, r.calls[i]? = some c →
          (f (stateBefore f readMax.toNat s out i) c.arg).2 = (c.res, c.err)) ∧
        (∀ k e, k * readMax.toNat < out.length →
          (∀ j, j < k →
            (f (stateBefore f readMax.toNat s out j)
              ((out.drop (j * readMax.toNat)).take readMax.toNat)).2.2 = none) →
          (f (stateBefore f readMax.toNat s out k)
            ((out.drop (k * readMax.toNat)).take readMax.toNat)).2.2 = some e →
          r.err = some e ∧ r.calls.length = k + 1) ∧
        (r.err = none → ∀ k, k * readMax.toNat < out.length →
          (f (stateBefore f readMax.toNat s out k)
            ((out.drop (k * readMax.toNat)).take readMax.toNat)).2.2 = none) := by
  have hm : 1 ≤ readMax.toNat := by omega
  intro fuel
  induction fuel with
  | zero => intro s off out h; omega
  | succ fuel ih =>
    intro s off out hlen
    by_cases hout : out = []
    · subst hout
      refine ⟨⟨s, [], [], none⟩, by simp [batchedLoop], ?_, ?_, ?_⟩
      · intro i c h
        simp at h
      · intro k e h
        simp at h
      · intro _ k h
        simp at h
    · have hpos : 0 < out.length := List.length_pos.mpr hout
      rw [batchedLoop_succ f readMax hmax fuel s off out hout]
      have h0 : (out.drop (0 * readMax.toNat)).take readMax.toNat = out.take readMax.toNat := by
        simp
      rcases hfs : f s (out.take readMax.toNat) with ⟨s', res, _ | e⟩
      · obtain ⟨r, hr, ha, hb, hc⟩ :=
          ih s' (off + min out.length readMax.toNat) (out.drop readMax.toNat)
            (by rw [List.length_drop]; omega)
        have hs' : (f s (out.take readMax.toNat)).1 = s' := by rw [hfs]
        simp only [hr]
        refine ⟨_, rfl, ?_, ?_, ?_⟩
        · intro i c hi
          cases i with
          | zero =>
            simp only [List.getElem?_cons_zero, Option.some.injEq] at hi
            subst hi
            simp only [stateBefore]
            rw [hfs]
          | succ j =>
            simp only [List.getElem?_cons_succ] at hi
            rw [stateBefore_succ, hs']
            exact ha j c hi
        · intro k e hk hprev hek
          cases k with
          | zero =>
            simp only [stateBefore] at hek
            rw [h0, hfs] at hek
            cases hek
          | succ k =>
            have hk' : k * readMax.toNat < (out.drop readMax.toNat).length := by
              rw [List.length_drop]
              rw [Nat.succ_mul] at hk
              omega
            have := hb k e hk'
              (fun j hj => by
                have := hprev (j + 1) (by omega)
                rw [stateBefore_succ, hs', ← chunk_succ] at this
                exact this)
              (by
                rw [stateBefore_succ, hs', ← chunk_succ] at hek
                exact hek)
            exact ⟨this.1, by simp only [List.length_cons]; omega⟩
        · intro he k hk
          cases k with
          | zero =>
            simp only [stateBefore]
            rw [h0, hfs]
          | succ k =>
            have hk' : k * readMax.toNat < (out.drop readMax.toNat).length := by
              rw [List.length_drop]
              rw [Nat.succ_mul] at hk
              omega
            rw [stateBefore_succ, hs', ← chunk_succ]
            exact hc he k hk'
      · refine ⟨_, rfl, ?_, ?_, ?_⟩
        · intro i c hi
          cases i with
          | zero =>
            simp only [List.getElem?_cons_zero, Option.some.injEq] at hi
            subst hi
            simp only [stateBefore]
            rw [hfs]
          | succ j => simp at hi
        · intro k e' hk hprev hek
          cases k with
          | zero =>
            simp only [stateBefore] at hek
            rw [h0, hfs] at hek
            simp only [Option.some.injEq] at hek
            subst hek
            exact ⟨rfl, rfl⟩
          | succ k =>
            have := hprev 0 (by omega)
            simp only [stateBefore] at this
            rw [h0, hfs] at this
            cases this
        · intro he
          cases he

/-- C17.  Error propagation: with a positive `readMax` the function that
`batched` returns ends.  Its calls of `f` are real: one at least for a slice
that is not empty, each on the subslice of its index and from the state the
call before left.  If `f` returns an error on the call of index `k` (the
calls before it having returned `nil`), that error is the error returned and
that call is the last call; an error is returned only if the last call of
`f` returned it; a run that returns `nil` has called `f` on every subslice;
and the bytes of the slice past the subslices of the calls are as they were
(at the place they had, for an `f` that keeps the length of its subslice). -/
theorem batched_error {σ ε : Type} (f : σ → List UInt8 → σ × List UInt8 × Option ε)
    (readMax : Int) (s : σ) (out : List UInt8) (hmax : 1 ≤ readMax) :
    ∃ r, batched f readMax s out = some r ∧
      (r.calls = [] ↔ out = []) ∧
      (∀ i c, r.calls[i]? = some c →
        c.off = i * readMax.toNat ∧
        c.arg = (out.drop (i * readMax.toNat)).take readMax.toNat ∧
        (f (stateBefore f readMax.toNat s out i) c.arg).2 = (c.res, c.err)) ∧
      (∀ k e, k * readMax.toNat < out.length →
        (∀ j, j < k →
          (f (stateBefore f readMax.toNat s out j)
            ((out.drop (j * readMax.toNat)).take readMax.toNat)).2.2 = none) →
        (f (stateBefore f readMax.toNat s out k)
          ((out.drop (k * readMax.toNat)).take readMax.toNat)).2.2 = some e →
        r.err = some e ∧ r.calls.length = k + 1 ∧
        r.out = (r.calls.map Call.res).flatten ++ out.drop ((k + 1) * readMax.toNat)) ∧
      (∀ i c e, r.calls[i]? = some c → c.err = some e →
        r.err = some e ∧ i + 1 = r.calls.length) ∧
      (∀ e, r.err = some e →
        ∃ k, k * readMax.toNat < out.length ∧ k + 1 = r.calls.length ∧
          (f (stateBefore f readMax.toNat s out k)
            ((out.drop (k * readMax.toNat)).take readMax.toNat)).2.2 = some e) ∧
      (r.err = none →
        r.calls.length = (out.length + readMax.toNat - 1) / readMax.toNat ∧
        ∀ k, k * readMax.toNat < out.length →
          (f (stateBefore f readMax.toNat s out k)
            ((out.drop (k * readMax.toNat)).take readMax.toNat)).2.2 = none) ∧
      r.out = (r.calls.map Call.res).flatten ++
        out.drop (r.calls.length * readMax.toNat) ∧
      ((∀ st b, (f st b).2.1.length = b.length) →
        r.out.drop (r.calls.length * readMax.toNat) =
          out.drop (r.calls.length * readMax.toNat)) := by
  obtain ⟨r, hr, ha, hb, hb', hc, hd, hg⟩ :=
    batchedLoop_spec f readMax hmax (out.length + 1) s 0 out (by omega)
  obtain ⟨r1, hr1, ta, tb, tc⟩ :=
    batchedLoop_trace f readMax hmax (out.length + 1) s 0 out (by omega)
  rw [hr] at hr1
  have heq : r = r1 := Option.some.inj hr1
  subst heq
  refine ⟨r, hr, hb, ?_, ?_, ?_, ?_, ?_, hc, ?_⟩
  · intro i c hi
    obtain ⟨a1, a2, _⟩ := ha i c hi
    exact ⟨by simpa using a1, a2, ta i c hi⟩
  · intro k e hk hprev hek
    obtain ⟨h1, h2⟩ := tb k e hk hprev hek
    refine ⟨h1, h2, ?_⟩
    rw [← h2]
    exact hc
  · intro i c e hi he
    obtain ⟨_, _, _, _, _, a6, a7⟩ := ha i c hi
    have hlt : i < r.calls.length := by
      by_contra hcon
      rw [List.getElem?_eq_none (by omega)] at hi
      cases hi
    have hlast : i + 1 = r.calls.length := by
      by_contra hne
      have := (a6 (by omega)).2
      rw [he] at this
      cases this
    exact ⟨by rw [← a7 hlast, he], hlast⟩
  · intro e he
    have hc' : r.calls ≠ [] := by
      intro h
      rw [hb' h] at he
      cases he
    have hpos : 0 < r.calls.length := List.length_pos.mpr hc'
    have hlast : r.calls[r.calls.length - 1]? = some (r.calls[r.calls.length - 1]) :=
      List.getElem?_eq_getElem (by omega)
    obtain ⟨_, a2, a3, _, _, _, a7⟩ := ha _ _ hlast
    have herr := a7 (by omega)
    have ht := ta _ _ hlast
    refine ⟨r.calls.length - 1, ?_, by omega, ?_⟩
    · rw [a2, List.length_take, List.length_drop] at a3
      omega
    · rw [← a2, ht]
      simp only
      rw [herr, he]
  · intro he
    exact ⟨(hd he).2, tc he⟩
  · intro hlenf
    have hl := hg hlenf
    rw [hc]
    by_cases hle : r.calls.length * readMax.toNat ≤ out.length
    · rw [List.drop_append_eq_append_drop, hl]
      have h1 : min (r.calls.length * readMax.toNat) out.length =
          r.calls.length * readMax.toNat := by omega
      rw [h1, List.drop_of_length_le (by rw [hl, h1]), Nat.sub_self]
      simp
    · have h1 : out.drop (r.calls.length * readMax.toNat) = [] :=
        List.drop_of_length_le (by omega)
      rw [h1, List.append_nil]
      exact List.drop_of_length_le (by rw [hl]; omega)

/-- An instance of C16: five bytes read by two. -/
theorem batched_chunks_witness :
    ∃ r, batched fillSeven 2 () [1, 2, 3, 4, 5] = some r ∧ r.err = none ∧
      r.calls.length = (([1, 2, 3, 4, 5] : List UInt8).length + (2 : Int).toNat - 1) /
        (2 : Int).toNat ∧
      (([1, 2, 3, 4, 5] : List UInt8) = [] → r.calls = []) ∧
      (∀ i c, r.calls[i]? = some c →
        c.off = i * (2 : Int).toNat ∧
        c.arg = (([1, 2, 3, 4, 5] : List UInt8).drop (i * (2 : Int).toNat)).take
          (2 : Int).toNat ∧
        1 ≤ c.arg.length ∧ c.arg.length ≤ (2 : Int).toNat ∧
        (i + 1 < r.calls.length → c.arg.length = (2 : Int).toNat)) ∧
      (r.calls.map Call.arg).flatten = [1, 2, 3, 4, 5] :=
  batched_chunks fillSeven 2 () [1, 2, 3, 4, 5] (by decide) (fun _ _ => rfl)

/-- An instance of C17: five bytes read by two, with an error on the second
call, the call of index 1: the error returned is that error, there are two
calls, and the fifth byte is as it was. -/
theorem batched_error_witness :
    ∃ r, batched failSecond 2 0 [1, 2, 3, 4, 5] = some r ∧
      r.err = some "failed" ∧ r.calls.length = 1 + 1 ∧
      r.out = (r.calls.map Call.res).flatten ++
        ([1, 2, 3, 4, 5] : List UInt8).drop ((1 + 1) * (2 : Int).toNat) :=
  match batched_error failSecond 2 0 [1, 2, 3, 4, 5] (by decide) with
  | ⟨r, hr, _, _, hk, _⟩ =>
    ⟨r, hr, hk 1 "failed" (by decide)
      (fun j hj => by
        have : j = 0 := by omega
        subst this
        rfl)
      rfl⟩

/-- The run of the second instance: two calls, the error of the second one
returned, and the fifth byte as it was. -/
theorem batched_error_run :
    (batched failSecond 2 0 [1, 2, 3, 4, 5]).map
        (fun r => (r.out, r.calls.length, r.err)) =
      some ([7, 7, 3, 4, 5], 2, some "failed") := by
  decide

end Rand

namespace Fipstls

/-! ## The FIPS switch: properties -/

theorem hasSuffix_iff (s t : List UInt8) :
    hasSuffix s t = true ↔ t <:+ s ∧ s ≠ t := by
  unfold hasSuffix
  simp only [Bool.and_eq_true, decide_eq_true_eq, beq_iff_eq, gt_iff_lt]
  constructor
  · rintro ⟨hlen, hdrop⟩
    refine ⟨List.suffix_iff_eq_drop.mpr hdrop.symm, ?_⟩
    intro h
    rw [h] at hlen
    exact Nat.lt_irrefl _ hlen
  · rintro ⟨hsuf, hne⟩
    have hle := hsuf.length_le
    have hlt : t.length < s.length := by
      rcases Nat.lt_or_eq_of_le hle with h | h
      · exact h
      · exact absurd (hsuf.eq_of_length h).symm hne
    exact ⟨hlt, (List.suffix_iff_eq_drop.mp hsuf).symm⟩

/-- C18, the failure.  The program name `_test` ends in `_test`, yet
`hasSuffix` is false of it, with its test that the name is longer than the
suffix, and `Abandon` panics for it and leaves the flag that `Force` set;
likewise for the name `.test`.  For the longer name `x_test` it does not
panic. -/
theorem Abandon_panics_for_exact_suffix :
    goString "_test" <:+ goString "_test" ∧
      hasSuffix (goString "_test") (goString "_test") = false ∧
      (Abandon (goString "_test") (Force ⟨0⟩)).1 ≠ none ∧
      Required (Abandon (goString "_test") (Force ⟨0⟩)).2 = true ∧
      (Abandon (goString ".test") (Force ⟨0⟩)).1 ≠ none ∧
      (Abandon (goString "x_test") (Force ⟨0⟩)).1 = none :=
  ⟨List.suffix_rfl, by decide, by decide, by decide, by decide, by decide⟩

/-- What `Abandon` does: it panics exactly when the program name is not a
longer name that ends in `_test`, is not a longer name that ends in `.test`,
is not `NaClMain` and is not empty (so it panics for the names `_test` and
`.test` themselves); when it panics the flag is as it was, and after `Force`
the function `Required` still reports true; when it does not panic the flag
is 0 and `Required` reports false. -/
theorem Abandon_spec (name : List UInt8) (st : State) :
    ((Abandon name st).1 ≠ none ↔
      ¬ (goString "_test" <:+ name ∧ name ≠ goString "_test") ∧
      ¬ (goString ".test" <:+ name ∧ name ≠ goString ".test") ∧
      name ≠ goString "NaClMain" ∧ name ≠ goString "") ∧
    ((Abandon name st).1 ≠ none →
      (Abandon name st).2 = st ∧ Required (Abandon name (Force st)).2 = true) ∧
    ((Abandon name st).1 = none →
      (Abandon name st).2.required = 0 ∧ Required (Abandon name st).2 = false) := by
  have hcond : ∀ st' : State, Abandon name st' =
      if (!hasSuffix name (goString "_test") && !hasSuffix name (goString ".test") &&
          name != goString "NaClMain" && name != goString "") = true then
        (some (goString "fipstls: invalid use of Abandon in " ++ name), st')
      else (none, ⟨0⟩) := fun _ => rfl
  have hiff : (!hasSuffix name (goString "_test") && !hasSuffix name (goString ".test") &&
          name != goString "NaClMain" && name != goString "") = true ↔
      ¬ (goString "_test" <:+ name ∧ name ≠ goString "_test") ∧
      ¬ (goString ".test" <:+ name ∧ name ≠ goString ".test") ∧
      name ≠ goString "NaClMain" ∧ name ≠ goString "" := by
    simp only [Bool.and_eq_true, Bool.not_eq_true', bne_iff_ne, ne_eq, and_assoc]
    rw [← Bool.not_eq_true, ← Bool.not_eq_true, hasSuffix_iff, hasSuffix_iff]
  by_cases h : (!hasSuffix name (goString "_test") && !hasSuffix name (goString ".test") &&
          name != goString "NaClMain" && name != goString "") = true
  · refine ⟨?_, ?_, ?_⟩
    · rw [hcond, if_pos h]
      simp only [ne_eq, reduceCtorEq, not_false_eq_true, true_iff]
      exact hiff.mp h
    · intro _
      rw [hcond, hcond, if_pos h, if_pos h]
      exact ⟨rfl, rfl⟩
    · intro hn
      rw [hcond, if_pos h] at hn
      cases hn
  · refine ⟨?_, ?_, ?_⟩
    · rw [hcond, if_neg h]
      simp only [ne_eq, not_true_eq_false, false_iff]
      exact fun hc => h (hiff.mpr hc)
    · intro hn
      rw [hcond, if_neg h] at hn
      exact absurd rfl hn
    · intro _
      rw [hcond, if_neg h]
      exact ⟨rfl, rfl⟩

/-- Two runs of `Abandon` after `Force`: the name `fips.test` clears the
flag, the name `server` panics and leaves it. -/
theorem Abandon_spec_witness :
    Required (Abandon (goString "fips.test") (Force ⟨0⟩)).2 = false ∧
      (Abandon (goString "server") (Force ⟨0⟩)).2 = Force ⟨0⟩ :=
  ⟨((Abandon_spec (goString "fips.test") (Force ⟨0⟩)).2.2 (by decide)).2,
   ((Abandon_spec (goString "server") (Force ⟨0⟩)).2.1 (by decide)).1⟩

end Fipstls
